import Mathlib

/-!
# Wallet consensus-update engine: a shallow embedding

This file embeds the wallet's consensus-change processing code
(`modules/wallet/update.go`: `isWalletAddress`, `updateConfirmedSet`,
`revertHistory`, `applyHistory`, `ProcessConsensusChange`,
`ReceiveUpdatedUnconfirmedTransactions`) and the seed scanner
(`seedScanner.ProcessConsensusChange` effect and `seedScanner.scan`)
as executable Lean definitions, and proves properties of them.

Modelling conventions:
* 32-byte hashes and identifiers (unlock hashes, output ids, transaction
  ids, block ids) are `Nat`; output-id derivation (`SiacoinOutputID`,
  `SiafundOutputID`, `MinerPayoutID`), a content hash in the source, is
  modelled as the injective pairing `Nat.pair` on (parent id, kind, index).
* `types.Currency` is an arbitrary-precision non-negative integer: `Nat`,
  with `Currency.Sub` as truncated subtraction.
* `types.BlockHeight` and `types.Timestamp` are `uint64`; arithmetic on
  them is taken modulo `2 ^ 64`.
* the bolt KV layer is not under `src/`; it is modelled from the spec
  (§4.A, §7): buckets are total maps `Nat → Option α`, `put`/`delete`
  always succeed, `get` of a missing key is the KV error surfaced by the
  `dbGet…` helpers, and an error returned from the `Update` closure rolls
  back every buffered write of the transaction while leaving all other
  (in-memory) mutations in place.
* a Go slice-bounds panic is modelled by `Option`: `none` is a panic.
-/

def U64MOD : Nat := 2 ^ 64

/-- `uint64` addition (wraps modulo `2 ^ 64`). -/
def u64add (a b : Nat) : Nat := (a + b) % U64MOD

/-- `uint64` decrement (wraps modulo `2 ^ 64`). -/
def u64dec (a : Nat) : Nat := (U64MOD + a - 1) % U64MOD

/-- `uint64` subtraction (wraps modulo `2 ^ 64`). -/
def u64sub (a b : Nat) : Nat := (U64MOD + a - b % U64MOD) % U64MOD

/-- Sentinel `math.MaxUint64` used for unconfirmed heights/timestamps. -/
def maxUint64 : Nat := U64MOD - 1

/-- `types.MaturityDelay` (a fixed constant in `types/constants.go`,
not under `src/`; its concrete value is irrelevant to every theorem). -/
def MaturityDelay : Nat := 144

/-- `types.SiacoinInput`: the unlock conditions are collapsed to the
unlock hash they commit to (`UnlockConditions.UnlockHash()`). -/
structure SiacoinInput where
  parentID : Nat
  unlockHash : Nat
  deriving DecidableEq

/-- `types.SiacoinOutput`. -/
structure SiacoinOutput where
  value : Nat
  unlockHash : Nat
  deriving DecidableEq

/-- `types.SiafundInput`. -/
structure SiafundInput where
  parentID : Nat
  unlockHash : Nat
  claimUnlockHash : Nat
  deriving DecidableEq

/-- `types.SiafundOutput`. -/
structure SiafundOutput where
  value : Nat
  unlockHash : Nat
  claimStart : Nat
  deriving DecidableEq

/-- `types.Transaction`; `txid` stands for the content hash `ID()`. -/
structure Transaction where
  txid : Nat
  siacoinInputs : List SiacoinInput
  siacoinOutputs : List SiacoinOutput
  siafundInputs : List SiafundInput
  siafundOutputs : List SiafundOutput
  minerFees : List Nat
  deriving DecidableEq

/-- `types.Block`; `id` stands for the content hash `ID()`;
miner payouts are siacoin outputs. -/
structure Block where
  id : Nat
  timestamp : Nat
  minerPayouts : List SiacoinOutput
  transactions : List Transaction
  deriving DecidableEq

/-- `txn.SiacoinOutputID(i)`: a deterministic injective function of the
transaction hash and the index, as the source's hash derivation is. -/
def Transaction.siacoinOutputID (t : Transaction) (i : Nat) : Nat :=
  Nat.pair (Nat.pair t.txid 0) i

/-- `txn.SiafundOutputID(i)`. -/
def Transaction.siafundOutputID (t : Transaction) (i : Nat) : Nat :=
  Nat.pair (Nat.pair t.txid 1) i

/-- `block.MinerPayoutID(i)`. -/
def Block.minerPayoutID (b : Block) (i : Nat) : Nat :=
  Nat.pair (Nat.pair b.id 2) i

/-- `modules.DiffDirection`. -/
inductive DiffDirection where
  | apply
  | revert
  deriving DecidableEq

/-- `modules.SiacoinOutputDiff`. -/
structure SiacoinOutputDiff where
  direction : DiffDirection
  id : Nat
  siacoinOutput : SiacoinOutput
  deriving DecidableEq

/-- `modules.SiafundOutputDiff`. -/
structure SiafundOutputDiff where
  direction : DiffDirection
  id : Nat
  siafundOutput : SiafundOutput
  deriving DecidableEq

/-- `modules.SiafundPoolDiff`. -/
structure SiafundPoolDiff where
  direction : DiffDirection
  adjusted : Nat
  previous : Nat
  deriving DecidableEq

/-- `modules.ConsensusChange` (the fields the wallet reads). -/
structure ConsensusChange where
  revertedBlocks : List Block
  appliedBlocks : List Block
  siacoinOutputDiffs : List SiacoinOutputDiff
  siafundOutputDiffs : List SiafundOutputDiff
  siafundPoolDiffs : List SiafundPoolDiff
  deriving DecidableEq

/-- Fund specifiers (`types.SpecifierMinerPayout` and friends). -/
inductive FundType where
  | minerPayout
  | siacoinInput
  | siacoinOutput
  | siafundInput
  | siafundOutput
  | claimOutput
  | minerFee
  deriving DecidableEq

/-- `modules.ProcessedInput`. -/
structure ProcessedInput where
  fundType : FundType
  walletAddress : Bool
  relatedAddress : Nat
  value : Nat
  deriving DecidableEq

/-- `modules.ProcessedOutput`. -/
structure ProcessedOutput where
  fundType : FundType
  maturityHeight : Nat
  walletAddress : Bool
  relatedAddress : Nat
  value : Nat
  deriving DecidableEq

/-- `modules.ProcessedTransaction`. -/
structure ProcessedTransaction where
  transaction : Transaction
  transactionID : Nat
  confirmationHeight : Nat
  confirmationTimestamp : Nat
  inputs : List ProcessedInput
  outputs : List ProcessedOutput
  deriving DecidableEq

/-- Modelled from the spec: the four wallet buckets of the bolt database
(§3 persistent state). `put`/`delete` always succeed; `get` of a missing
key is the KV error. -/
structure DB where
  siacoinOutputs : Nat → Option SiacoinOutput
  siafundOutputs : Nat → Option SiafundOutput
  historicOutputs : Nat → Option Nat
  historicClaimStarts : Nat → Option Nat

/-- The empty database (all buckets empty). -/
def DB.empty : DB :=
  ⟨fun _ => none, fun _ => none, fun _ => none, fun _ => none⟩

/-- `dbPutSiacoinOutput`. -/
def DB.putSiacoinOutput (db : DB) (id : Nat) (o : SiacoinOutput) : DB :=
  { db with siacoinOutputs := fun k => if k = id then some o else db.siacoinOutputs k }

/-- `dbDeleteSiacoinOutput`. -/
def DB.deleteSiacoinOutput (db : DB) (id : Nat) : DB :=
  { db with siacoinOutputs := fun k => if k = id then none else db.siacoinOutputs k }

/-- `dbPutSiafundOutput`. -/
def DB.putSiafundOutput (db : DB) (id : Nat) (o : SiafundOutput) : DB :=
  { db with siafundOutputs := fun k => if k = id then some o else db.siafundOutputs k }

/-- `dbDeleteSiafundOutput`. -/
def DB.deleteSiafundOutput (db : DB) (id : Nat) : DB :=
  { db with siafundOutputs := fun k => if k = id then none else db.siafundOutputs k }

/-- `dbPutHistoricOutput`. -/
def DB.putHistoricOutput (db : DB) (id : Nat) (v : Nat) : DB :=
  { db with historicOutputs := fun k => if k = id then some v else db.historicOutputs k }

/-- `dbPutHistoricClaimStart`. -/
def DB.putHistoricClaimStart (db : DB) (id : Nat) (v : Nat) : DB :=
  { db with historicClaimStarts := fun k => if k = id then some v else db.historicClaimStarts k }

/-- The wallet's in-memory state read or written by `update.go`.
`processedTransactionMap` maps a transaction id to the index of the
entry it references in `processedTransactions` (the Go map stores a
pointer to that entry). -/
structure Wallet where
  keys : List Nat
  processedTransactions : List ProcessedTransaction
  processedTransactionMap : Nat → Option Nat
  unconfirmedProcessedTransactions : List ProcessedTransaction
  siafundPool : Nat
  consensusSetHeight : Nat

/-- `Wallet.isWalletAddress`: membership in the spendable-key index. -/
def Wallet.isWalletAddress (w : Wallet) (uh : Nat) : Bool :=
  w.keys.contains uh

/-- Membership in a key list, without a wallet at hand. -/
def keysContain (keys : List Nat) (uh : Nat) : Bool :=
  keys.contains uh

/-! ## updateConfirmedSet -/

/-- One iteration of `updateConfirmedSet`'s siacoin-diff loop: skip the
diff unless the output address is a wallet address; apply puts, revert
deletes. (`dbPut`/`dbDelete` never fail in the KV model.) -/
def scDiffStep (keys : List Nat) (db : DB) (d : SiacoinOutputDiff) : DB :=
  if keysContain keys d.siacoinOutput.unlockHash then
    match d.direction with
    | .apply => db.putSiacoinOutput d.id d.siacoinOutput
    | .revert => db.deleteSiacoinOutput d.id
  else db

/-- One iteration of `updateConfirmedSet`'s siafund-diff loop. -/
def sfDiffStep (keys : List Nat) (db : DB) (d : SiafundOutputDiff) : DB :=
  if keysContain keys d.siafundOutput.unlockHash then
    match d.direction with
    | .apply => db.putSiafundOutput d.id d.siafundOutput
    | .revert => db.deleteSiafundOutput d.id
  else db

/-- One iteration of `updateConfirmedSet`'s pool-diff loop:
apply sets the pool to `Adjusted`, revert to `Previous`. -/
def poolStep (_p : Nat) (d : SiafundPoolDiff) : Nat :=
  match d.direction with
  | .apply => d.adjusted
  | .revert => d.previous

/-- `Wallet.updateConfirmedSet`: walk the siacoin diffs, the siafund
diffs, then the pool diffs, in delivery order. -/
def updateConfirmedSet (w : Wallet) (db : DB) (cc : ConsensusChange) : Wallet × DB :=
  let db1 := cc.siacoinOutputDiffs.foldl (scDiffStep w.keys) db
  let db2 := cc.siafundOutputDiffs.foldl (sfDiffStep w.keys) db1
  let pool := cc.siafundPoolDiffs.foldl poolStep w.siafundPool
  ({ w with siafundPool := pool }, db2)

/-! ## revertHistory -/

/-- One iteration of `revertHistory`'s reversed-transaction loop: if the
block transaction's id equals the id of the last processed transaction,
pop it and erase it from the index map. The emptiness test is part of
the source's condition, so this step cannot panic. -/
def revertTxnStep (w : Wallet) (t : Transaction) : Wallet :=
  match w.processedTransactions.getLast? with
  | some pt =>
      if t.txid = pt.transactionID then
        { w with
          processedTransactions := w.processedTransactions.dropLast,
          processedTransactionMap :=
            fun k => if k = t.txid then none else w.processedTransactionMap k }
      else w
  | none => w

/-- `revertHistory`'s per-block body: walk the block's transactions in
reverse; then, if any miner payout targets a wallet address, pop the
last processed transaction unconditionally — popping an empty list is a
slice-bounds panic (`none`) — and erase the block id from the index
map; finally decrement the consensus height. -/
def revertBlock (w : Wallet) (b : Block) : Option Wallet :=
  let w1 := b.transactions.reverse.foldl revertTxnStep w
  let w2? :=
    if b.minerPayouts.any fun mp => w1.isWalletAddress mp.unlockHash then
      if w1.processedTransactions.isEmpty then
        none
      else
        some { w1 with
          processedTransactions := w1.processedTransactions.dropLast,
          processedTransactionMap :=
            fun k => if k = b.id then none else w1.processedTransactionMap k }
    else some w1
  w2?.map fun w2 => { w2 with consensusSetHeight := u64dec w2.consensusSetHeight }

/-- `Wallet.revertHistory`: `none` is a panic. -/
def revertHistory (w : Wallet) (cc : ConsensusChange) : Option Wallet :=
  cc.revertedBlocks.foldlM revertBlock w

/-! ## applyHistory -/

/-- `applyHistory`'s relevance pass over a block transaction: some input
or output, in the siacoin or the siafund set, targets a wallet address. -/
def relevantTxn (keys : List Nat) (t : Transaction) : Bool :=
  (t.siacoinInputs.any fun sci => keysContain keys sci.unlockHash) ||
  (t.siacoinOutputs.any fun sco => keysContain keys sco.unlockHash) ||
  (t.siafundInputs.any fun sfi => keysContain keys sfi.unlockHash) ||
  (t.siafundOutputs.any fun sfo => keysContain keys sfo.unlockHash)

/-- The historic-output writes `applyHistory` performs for one block
transaction, unconditionally (regardless of relevance): every siacoin
output's value, every siafund output's value and claim start. -/
def putTxnHistoric (db : DB) (t : Transaction) : DB :=
  let db1 := (t.siacoinOutputs.enum).foldl
    (fun acc p => acc.putHistoricOutput (t.siacoinOutputID p.1) p.2.value) db
  (t.siafundOutputs.enum).foldl
    (fun acc p =>
      (acc.putHistoricOutput (t.siafundOutputID p.1) p.2.value).putHistoricClaimStart
        (t.siafundOutputID p.1) p.2.claimStart) db1

/-- The processed inputs `applyHistory` builds for the siacoin inputs:
each looks up the spent output's value in `HistoricOutputs`; a missing
key is the `could not get historic output` error. -/
def buildScInputs (keys : List Nat) (db : DB) :
    List SiacoinInput → Except String (List ProcessedInput)
  | [] => .ok []
  | sci :: rest =>
      match db.historicOutputs sci.parentID with
      | none => .error "could not get historic output"
      | some v =>
          match buildScInputs keys db rest with
          | .error e => .error e
          | .ok tl => .ok ({ fundType := .siacoinInput,
                             walletAddress := keysContain keys sci.unlockHash,
                             relatedAddress := sci.unlockHash,
                             value := v } :: tl)

/-- The processed input / claim-output pairs `applyHistory` builds for
the siafund inputs: the input's value and claim start are looked up in
the historic buckets; the claim output's value is
`(siafundPool - claimStart) * value`, its maturity height is
`consensusSetHeight + MaturityDelay`, and it targets the input's
`ClaimUnlockHash`. -/
def buildSfPairs (keys : List Nat) (h pool : Nat) (db : DB) :
    List SiafundInput → Except String (List (ProcessedInput × ProcessedOutput))
  | [] => .ok []
  | sfi :: rest =>
      match db.historicOutputs sfi.parentID with
      | none => .error "could not get historic output"
      | some v =>
          match db.historicClaimStarts sfi.parentID with
          | none => .error "could not get historic claim start"
          | some s =>
              match buildSfPairs keys h pool db rest with
              | .error e => .error e
              | .ok tl => .ok (({ fundType := .siafundInput,
                                  walletAddress := keysContain keys sfi.unlockHash,
                                  relatedAddress := sfi.unlockHash,
                                  value := v },
                                { fundType := .claimOutput,
                                  maturityHeight := u64add h MaturityDelay,
                                  walletAddress := keysContain keys sfi.unlockHash,
                                  relatedAddress := sfi.claimUnlockHash,
                                  value := (pool - s) * v }) :: tl)

/-- The `ProcessedTransaction` `applyHistory` synthesizes for a relevant
block transaction (the code after the relevance pass): siacoin inputs
then siafund inputs; siacoin outputs, then one claim output per siafund
input, then siafund outputs, then miner fees. `h` is the consensus
height after the increment for this block, `db` already holds this
transaction's historic writes. -/
def buildApplyPT (keys : List Nat) (h pool ts : Nat) (db : DB) (t : Transaction) :
    Except String ProcessedTransaction :=
  match buildScInputs keys db t.siacoinInputs with
  | .error e => .error e
  | .ok scIns =>
      match buildSfPairs keys h pool db t.siafundInputs with
      | .error e => .error e
      | .ok sfPairs =>
          let scOuts := t.siacoinOutputs.map fun sco =>
            { fundType := .siacoinOutput, maturityHeight := h,
              walletAddress := keysContain keys sco.unlockHash,
              relatedAddress := sco.unlockHash, value := sco.value : ProcessedOutput }
          let sfOuts := t.siafundOutputs.map fun sfo =>
            { fundType := .siafundOutput, maturityHeight := h,
              walletAddress := keysContain keys sfo.unlockHash,
              relatedAddress := sfo.unlockHash, value := sfo.value : ProcessedOutput }
          let feeOuts := t.minerFees.map fun fee =>
            { fundType := .minerFee, maturityHeight := 0,
              walletAddress := false, relatedAddress := 0, value := fee : ProcessedOutput }
          .ok { transaction := t, transactionID := t.txid,
                confirmationHeight := h, confirmationTimestamp := ts,
                inputs := scIns ++ sfPairs.map Prod.fst,
                outputs := scOuts ++ sfPairs.map Prod.snd ++ sfOuts ++ feeOuts }

/-- Execution state threaded through `applyHistory`: the wallet and the
buffered database writes, plus the first error hit (the Go code returns
at the first error, leaving all mutations made so far in place). -/
structure ExecState where
  wallet : Wallet
  db : DB
  err : Option String

/-- `applyHistory`'s per-transaction body (`ts` is the block timestamp):
write the historic outputs, then, if the transaction is relevant, build
and append its `ProcessedTransaction` and index it. -/
def applyTxnStep (ts : Nat) (s : ExecState) (t : Transaction) : ExecState :=
  if s.err.isSome then s
  else
    let w := s.wallet
    let db := putTxnHistoric s.db t
    if relevantTxn w.keys t then
      match buildApplyPT w.keys w.consensusSetHeight w.siafundPool
          ts db t with
      | .error e => { s with db := db, err := some e }
      | .ok pt =>
          let pts := w.processedTransactions ++ [pt]
          { s with
            db := db,
            wallet := { w with
              processedTransactions := pts,
              processedTransactionMap :=
                fun k => if k = pt.transactionID then some (pts.length - 1)
                         else w.processedTransactionMap k } }
    else { s with db := db }

/-- The zero value `types.Transaction{}` used as the body of the
synthetic miner-payout processed transaction. -/
def emptyTransaction : Transaction :=
  { txid := 0, siacoinInputs := [], siacoinOutputs := [],
    siafundInputs := [], siafundOutputs := [], minerFees := [] }

/-- `applyHistory`'s per-block body: increment the consensus height,
write every miner payout to `HistoricOutputs`, synthesize the
miner-payout transaction (id = block id) when some payout targets a
wallet address, then process the block's transactions in order. -/
def applyBlockStep (s : ExecState) (b : Block) : ExecState :=
  if s.err.isSome then s
  else
    let w0 := { s.wallet with
      consensusSetHeight := u64add s.wallet.consensusSetHeight 1 }
    let db := (b.minerPayouts.enum).foldl
      (fun acc p => acc.putHistoricOutput (b.minerPayoutID p.1) p.2.value) s.db
    let relevant := b.minerPayouts.any fun mp => keysContain w0.keys mp.unlockHash
    let w1 :=
      if relevant then
        let minerPT : ProcessedTransaction :=
          { transaction := emptyTransaction,
            transactionID := b.id,
            confirmationHeight := w0.consensusSetHeight,
            confirmationTimestamp := b.timestamp,
            inputs := [],
            outputs := b.minerPayouts.map fun mp =>
              { fundType := .minerPayout,
                maturityHeight := u64add w0.consensusSetHeight MaturityDelay,
                walletAddress := keysContain w0.keys mp.unlockHash,
                relatedAddress := mp.unlockHash,
                value := mp.value } }
        let pts := w0.processedTransactions ++ [minerPT]
        { w0 with
          processedTransactions := pts,
          processedTransactionMap :=
            fun k => if k = b.id then some (pts.length - 1)
                     else w0.processedTransactionMap k }
      else w0
    b.transactions.foldl (applyTxnStep b.timestamp) { wallet := w1, db := db, err := none }

/-- `Wallet.applyHistory`. -/
def applyHistory (w : Wallet) (db : DB) (blocks : List Block) : ExecState :=
  blocks.foldl applyBlockStep { wallet := w, db := db, err := none }

/-! ## ProcessConsensusChange -/

/-- The outcome of one `db.Update` call made by `ProcessConsensusChange`
or `ReceiveUpdatedUnconfirmedTransactions`: the wallet's in-memory state
as the closure left it, the database after commit or rollback, and the
error the closure returned (which `ProcessConsensusChange` only logs). -/
structure CCResult where
  wallet : Wallet
  db : DB
  err : Option String

/-- `Wallet.ProcessConsensusChange`: run `updateConfirmedSet`, then
`revertHistory`, then `applyHistory` inside one write transaction. A
returned error aborts the transaction: the database reverts to its
state before the change, while every in-memory mutation the closure
already made stays. `none` is a panic in `revertHistory`. -/
def processConsensusChange (w : Wallet) (db : DB) (cc : ConsensusChange) :
    Option CCResult :=
  let p := updateConfirmedSet w db cc
  match revertHistory p.1 cc with
  | none => none
  | some w2 =>
      let s := applyHistory w2 p.2 cc.appliedBlocks
      match s.err with
      | none => some ⟨s.wallet, s.db, none⟩
      | some e => some ⟨s.wallet, db, some e⟩

/-- Deliver a sequence of consensus changes in order; an error in one
change is logged and the next change is still processed (the database
alone was rolled back for the failed change); a panic stops everything. -/
def processSeq (w : Wallet) (db : DB) : List ConsensusChange → Option (Wallet × DB)
  | [] => some (w, db)
  | cc :: rest =>
      match processConsensusChange w db cc with
      | none => none
      | some r => processSeq r.wallet r.db rest

/-! ## ReceiveUpdatedUnconfirmedTransactions -/

/-- The relevance test `ReceiveUpdatedUnconfirmedTransactions` uses:
it inspects only the siacoin inputs and the siacoin outputs. -/
def scRelevantTxn (keys : List Nat) (t : Transaction) : Bool :=
  (t.siacoinInputs.any fun sci => keysContain keys sci.unlockHash) ||
  (t.siacoinOutputs.any fun sco => keysContain keys sco.unlockHash)

/-- The historic-output writes `ReceiveUpdatedUnconfirmedTransactions`
performs for one mempool transaction: every siacoin output's value
(unconditionally). -/
def putScoHistoric (db : DB) (t : Transaction) : DB :=
  (t.siacoinOutputs.enum).foldl
    (fun acc p => acc.putHistoricOutput (t.siacoinOutputID p.1) p.2.value) db

/-- The `ProcessedTransaction` synthesized for a relevant mempool
transaction: sentinel confirmation height and timestamp, siacoin inputs
(values from `HistoricOutputs`), siacoin outputs with sentinel maturity,
miner fees. -/
def buildUnconfirmedPT (keys : List Nat) (db : DB) (t : Transaction) :
    Except String ProcessedTransaction :=
  match buildScInputs keys db t.siacoinInputs with
  | .error e => .error e
  | .ok scIns =>
      let scOuts := t.siacoinOutputs.map fun sco =>
        { fundType := .siacoinOutput, maturityHeight := maxUint64,
          walletAddress := keysContain keys sco.unlockHash,
          relatedAddress := sco.unlockHash, value := sco.value : ProcessedOutput }
      let feeOuts := t.minerFees.map fun fee =>
        { fundType := .minerFee, maturityHeight := 0,
          walletAddress := false, relatedAddress := 0, value := fee : ProcessedOutput }
      .ok { transaction := t, transactionID := t.txid,
            confirmationHeight := maxUint64, confirmationTimestamp := maxUint64,
            inputs := scIns, outputs := scOuts ++ feeOuts }

/-- Per-transaction body of `ReceiveUpdatedUnconfirmedTransactions`. -/
def unconfirmedTxnStep (s : ExecState) (t : Transaction) : ExecState :=
  if s.err.isSome then s
  else
    let w := s.wallet
    let db := putScoHistoric s.db t
    if scRelevantTxn w.keys t then
      match buildUnconfirmedPT w.keys db t with
      | .error e => { s with db := db, err := some e }
      | .ok pt =>
          { s with
            db := db,
            wallet := { w with
              unconfirmedProcessedTransactions :=
                w.unconfirmedProcessedTransactions ++ [pt] } }
    else { s with db := db }

/-- `Wallet.ReceiveUpdatedUnconfirmedTransactions`: clear the
unconfirmed list, then rebuild it from the delivered mempool inside one
write transaction (an error aborts the transaction's writes but keeps
the in-memory mutations). -/
def receiveUpdatedUnconfirmedTransactions (w : Wallet) (db : DB)
    (txns : List Transaction) : CCResult :=
  let s := txns.foldl unconfirmedTxnStep
    { wallet := { w with unconfirmedProcessedTransactions := [] },
      db := db, err := none }
  match s.err with
  | none => ⟨s.wallet, s.db, none⟩
  | some e => ⟨s.wallet, db, some e⟩

/-! ## The seed scanner -/

/-- Events visible to the consensus set during `seedScanner.scan`. -/
inductive ScanEvent where
  | subscribe
  | unsubscribe
  deriving DecidableEq

/-- Outcome of `seedScanner.scan`. `fuelOut` is a modelling artifact:
the Lean recursion carries fuel the Go loop does not need (the loop
always terminates when the initial key count is positive). -/
inductive ScanOutcome where
  | success
  | maxKeysErr
  | fuelOut
  deriving DecidableEq

/-- Result of a scan: outcome, number of subscription rounds performed,
final number of generated keys, final `largestIndexSeen`, and the trace
of subscribe/unsubscribe calls made to the consensus set. -/
structure ScanRun where
  outcome : ScanOutcome
  rounds : Nat
  keyCount : Nat
  lis : Nat
  trace : List ScanEvent
  deriving DecidableEq

/-- The `seedScanner.scan` loop. `lisOf n` abstracts one synchronous
subscription replay of the whole chain with `n` generated keys: it is
the largest seed index, among the addresses appearing anywhere in the
delivered changes, whose key is in the first `n` generated keys
(`ProcessConsensusChange` updates `largestIndexSeen` from every address
in every change). `generateKeys n` extends the key map by `n` fresh
addresses. Per round: generate `numKeys` keys, subscribe; if
`largestIndexSeen < keyCount / 2`, unsubscribe and succeed; otherwise
double `numKeys`, clamp it to `maxKeys - keyCount` (`uint64`
arithmetic), and loop without unsubscribing. Exhausting `maxKeys`
unsubscribes and returns `errMaxKeys`. -/
def scanLoop (maxKeys : Nat) (lisOf : Nat → Nat) :
    Nat → Nat → Nat → Nat → ScanRun
  | 0, keyCount, _, lis => ⟨.fuelOut, 0, keyCount, lis, []⟩
  | fuel + 1, keyCount, numKeys, lis =>
      if keyCount < maxKeys then
        let kc := keyCount + numKeys
        let lis2 := max lis (lisOf kc)
        if lis2 < kc / 2 then
          ⟨.success, 1, kc, lis2, [.subscribe, .unsubscribe]⟩
        else
          let n2 := numKeys * 2
          let n3 := if n2 > u64sub maxKeys kc then u64sub maxKeys kc else n2
          let r := scanLoop maxKeys lisOf fuel kc n3 lis2
          { r with rounds := r.rounds + 1, trace := .subscribe :: r.trace }
      else ⟨.maxKeysErr, 0, keyCount, lis, [.unsubscribe]⟩

/-- `seedScanner.scan` for a fresh scanner: no keys, no index seen,
`numKeys = numInitialKeys`. The fuel bound `maxKeys + 2` is enough for
every run the theorems below speak about. -/
def scan (initialKeys maxKeys : Nat) (lisOf : Nat → Nat) : ScanRun :=
  scanLoop maxKeys lisOf (maxKeys + 2) 0 initialKeys 0

/-! ## General fold helpers -/

/-- A `foldl` whose step preserves a projection preserves it overall. -/
theorem foldl_preserves {α β γ : Type} (f : β → α → β) (proj : β → γ)
    (h : ∀ b a, proj (f b a) = proj b) :
    ∀ (l : List α) (b : β), proj (l.foldl f b) = proj b := by
  intro l
  induction l with
  | nil => intro b; rfl
  | cons a l ih => intro b; rw [List.foldl_cons, ih, h]

/-- An option-valued `foldlM` whose step preserves a projection
preserves it overall. -/
theorem foldlM_option_preserves {α β γ : Type} (f : β → α → Option β) (proj : β → γ)
    (h : ∀ b a b', f b a = some b' → proj b' = proj b) :
    ∀ (l : List α) (b b' : β), l.foldlM f b = some b' → proj b' = proj b := by
  intro l
  induction l with
  | nil =>
      intro b b' hb
      simp only [List.foldlM_nil, pure, Option.some.injEq] at hb
      rw [hb]
  | cons a l ih =>
      intro b b' hb
      rw [List.foldlM_cons] at hb
      cases hfa : f b a with
      | none => rw [hfa] at hb; simp at hb
      | some b1 =>
          rw [hfa] at hb
          simp only [Option.bind_eq_bind, Option.some_bind] at hb
          rw [ih b1 b' hb, h b a b1 hfa]

/-! ## Frame lemmas for the historic-output writes -/

theorem putScoHistoric_sc (db : DB) (t : Transaction) :
    (putScoHistoric db t).siacoinOutputs = db.siacoinOutputs := by
  unfold putScoHistoric
  exact foldl_preserves
    (fun acc p => acc.putHistoricOutput (t.siacoinOutputID p.1) p.2.value)
    (fun d => d.siacoinOutputs) (fun _ _ => rfl) t.siacoinOutputs.enum db

theorem putScoHistoric_sf (db : DB) (t : Transaction) :
    (putScoHistoric db t).siafundOutputs = db.siafundOutputs := by
  unfold putScoHistoric
  exact foldl_preserves
    (fun acc p => acc.putHistoricOutput (t.siacoinOutputID p.1) p.2.value)
    (fun d => d.siafundOutputs) (fun _ _ => rfl) t.siacoinOutputs.enum db

theorem putScoHistoric_claims (db : DB) (t : Transaction) :
    (putScoHistoric db t).historicClaimStarts = db.historicClaimStarts := by
  unfold putScoHistoric
  exact foldl_preserves
    (fun acc p => acc.putHistoricOutput (t.siacoinOutputID p.1) p.2.value)
    (fun d => d.historicClaimStarts) (fun _ _ => rfl) t.siacoinOutputs.enum db

theorem putTxnHistoric_sc (db : DB) (t : Transaction) :
    (putTxnHistoric db t).siacoinOutputs = db.siacoinOutputs := by
  unfold putTxnHistoric
  dsimp only
  exact (foldl_preserves
    (fun (acc : DB) (p : Nat × SiafundOutput) =>
      (acc.putHistoricOutput (t.siafundOutputID p.1) p.2.value).putHistoricClaimStart
        (t.siafundOutputID p.1) p.2.claimStart)
    (fun d => d.siacoinOutputs) (fun _ _ => rfl) t.siafundOutputs.enum _).trans
    (foldl_preserves
      (fun acc p => acc.putHistoricOutput (t.siacoinOutputID p.1) p.2.value)
      (fun d => d.siacoinOutputs) (fun _ _ => rfl) t.siacoinOutputs.enum db)

theorem putTxnHistoric_sf (db : DB) (t : Transaction) :
    (putTxnHistoric db t).siafundOutputs = db.siafundOutputs := by
  unfold putTxnHistoric
  dsimp only
  exact (foldl_preserves
    (fun (acc : DB) (p : Nat × SiafundOutput) =>
      (acc.putHistoricOutput (t.siafundOutputID p.1) p.2.value).putHistoricClaimStart
        (t.siafundOutputID p.1) p.2.claimStart)
    (fun d => d.siafundOutputs) (fun _ _ => rfl) t.siafundOutputs.enum _).trans
    (foldl_preserves
      (fun acc p => acc.putHistoricOutput (t.siacoinOutputID p.1) p.2.value)
      (fun d => d.siafundOutputs) (fun _ _ => rfl) t.siacoinOutputs.enum db)

/-! ## C10: frame of ReceiveUpdatedUnconfirmedTransactions -/

/-- All the state `ReceiveUpdatedUnconfirmedTransactions` must not touch. -/
def frameRecv (s : ExecState) :
    List Nat × List ProcessedTransaction × (Nat → Option Nat) × Nat × Nat ×
      (Nat → Option SiacoinOutput) × (Nat → Option SiafundOutput) × (Nat → Option Nat) :=
  (s.wallet.keys, s.wallet.processedTransactions, s.wallet.processedTransactionMap,
   s.wallet.siafundPool, s.wallet.consensusSetHeight,
   s.db.siacoinOutputs, s.db.siafundOutputs, s.db.historicClaimStarts)

theorem unconfirmedTxnStep_frame (s : ExecState) (t : Transaction) :
    frameRecv (unconfirmedTxnStep s t) = frameRecv s := by
  unfold unconfirmedTxnStep
  split
  · rfl
  · dsimp only
    split
    · split <;>
        simp [frameRecv, putScoHistoric_sc, putScoHistoric_sf, putScoHistoric_claims]
    · simp [frameRecv, putScoHistoric_sc, putScoHistoric_sf, putScoHistoric_claims]

/-- C10: a mempool update mutates only the unconfirmed transaction list
and the `HistoricOutputs` bucket. The processed-transaction list, its
index map, the siafund pool, the consensus height, the key set, and the
`SiacoinOutputs`, `SiafundOutputs` and `HistoricClaimStarts` buckets are
all unchanged — on the error path the bucket equalities hold because the
transaction's buffered writes are rolled back. -/
theorem c10_receive_unconfirmed_frame (w : Wallet) (db : DB) (txns : List Transaction) :
    (receiveUpdatedUnconfirmedTransactions w db txns).wallet.processedTransactions
        = w.processedTransactions ∧
    (receiveUpdatedUnconfirmedTransactions w db txns).wallet.processedTransactionMap
        = w.processedTransactionMap ∧
    (receiveUpdatedUnconfirmedTransactions w db txns).wallet.siafundPool = w.siafundPool ∧
    (receiveUpdatedUnconfirmedTransactions w db txns).wallet.consensusSetHeight
        = w.consensusSetHeight ∧
    (receiveUpdatedUnconfirmedTransactions w db txns).wallet.keys = w.keys ∧
    (receiveUpdatedUnconfirmedTransactions w db txns).db.siacoinOutputs = db.siacoinOutputs ∧
    (receiveUpdatedUnconfirmedTransactions w db txns).db.siafundOutputs = db.siafundOutputs ∧
    (receiveUpdatedUnconfirmedTransactions w db txns).db.historicClaimStarts
        = db.historicClaimStarts := by
  have hf := foldl_preserves unconfirmedTxnStep frameRecv unconfirmedTxnStep_frame txns
    ⟨{ w with unconfirmedProcessedTransactions := [] }, db, none⟩
  simp only [frameRecv, Prod.mk.injEq] at hf
  obtain ⟨hk, hpt, hmap, hpool, hh, hsc, hsf, hcl⟩ := hf
  unfold receiveUpdatedUnconfirmedTransactions
  dsimp only
  split
  · exact ⟨hpt, hmap, hpool, hh, hk, hsc, hsf, hcl⟩
  · exact ⟨hpt, hmap, hpool, hh, hk, rfl, rfl, rfl⟩

/-! ## Frame lemmas for revertHistory and applyHistory -/

/-- Wallet state `revertHistory` never touches. -/
def frameRevert (w : Wallet) : List Nat × Nat × List ProcessedTransaction :=
  (w.keys, w.siafundPool, w.unconfirmedProcessedTransactions)

theorem revertTxnStep_frame (w : Wallet) (t : Transaction) :
    frameRevert (revertTxnStep w t) = frameRevert w := by
  unfold revertTxnStep
  split
  · split <;> rfl
  · rfl

theorem revertBlock_frame (w : Wallet) (b : Block) (w' : Wallet)
    (h : revertBlock w b = some w') : frameRevert w' = frameRevert w := by
  have hfold := foldl_preserves revertTxnStep frameRevert revertTxnStep_frame
    b.transactions.reverse w
  unfold revertBlock at h
  dsimp only at h
  split at h
  · split at h
    · simp at h
    · simp only [Option.map_some', Option.some.injEq] at h
      rw [← h]
      exact hfold
  · simp only [Option.map_some', Option.some.injEq] at h
    rw [← h]
    exact hfold

theorem revertHistory_frame (w : Wallet) (cc : ConsensusChange) (w' : Wallet)
    (h : revertHistory w cc = some w') : frameRevert w' = frameRevert w :=
  foldlM_option_preserves revertBlock frameRevert revertBlock_frame
    cc.revertedBlocks w w' h

/-- State `applyHistory` never touches. -/
def frameApply (s : ExecState) :
    List Nat × Nat × List ProcessedTransaction ×
      (Nat → Option SiacoinOutput) × (Nat → Option SiafundOutput) :=
  (s.wallet.keys, s.wallet.siafundPool, s.wallet.unconfirmedProcessedTransactions,
   s.db.siacoinOutputs, s.db.siafundOutputs)

theorem applyTxnStep_frame (ts : Nat) (s : ExecState) (t : Transaction) :
    frameApply (applyTxnStep ts s t) = frameApply s := by
  unfold applyTxnStep
  split
  · rfl
  · dsimp only
    split
    · split <;> simp [frameApply, putTxnHistoric_sc, putTxnHistoric_sf]
    · simp [frameApply, putTxnHistoric_sc, putTxnHistoric_sf]

theorem applyBlockStep_frame (s : ExecState) (b : Block) :
    frameApply (applyBlockStep s b) = frameApply s := by
  unfold applyBlockStep
  split
  · rfl
  · dsimp only
    have hsc := foldl_preserves
      (fun (acc : DB) (p : Nat × SiacoinOutput) =>
        acc.putHistoricOutput (b.minerPayoutID p.1) p.2.value)
      (fun d => d.siacoinOutputs) (fun _ _ => rfl) b.minerPayouts.enum s.db
    have hsf := foldl_preserves
      (fun (acc : DB) (p : Nat × SiacoinOutput) =>
        acc.putHistoricOutput (b.minerPayoutID p.1) p.2.value)
      (fun d => d.siafundOutputs) (fun _ _ => rfl) b.minerPayouts.enum s.db
    refine Eq.trans (foldl_preserves (applyTxnStep b.timestamp) frameApply
      (fun s2 t => applyTxnStep_frame b.timestamp s2 t) b.transactions _) ?_
    split <;> simp [frameApply, hsc, hsf]

theorem applyHistory_frame (w : Wallet) (db : DB) (blocks : List Block) :
    frameApply (applyHistory w db blocks) = frameApply ⟨w, db, none⟩ :=
  foldl_preserves applyBlockStep frameApply applyBlockStep_frame blocks _

/-! ## C6: siafund pool fold -/

/-- `poolStep` ignores its accumulator. -/
theorem poolStep_const (p q : Nat) (d : SiafundPoolDiff) : poolStep p d = poolStep q d := by
  unfold poolStep
  cases d.direction <;> rfl

theorem foldl_poolStep_getLast (l : List SiafundPoolDiff) :
    ∀ p d, l.getLast? = some d → l.foldl poolStep p = poolStep p d := by
  induction l with
  | nil => intro p d h; simp at h
  | cons a l ih =>
      intro p d h
      cases l with
      | nil =>
          simp only [List.getLast?_singleton, Option.some.injEq] at h
          rw [← h]
          rfl
      | cons b l2 =>
          rw [List.getLast?_cons_cons] at h
          rw [List.foldl_cons, ih (poolStep p a) d h]
          exact poolStep_const _ _ _

/-- C6: after processing a consensus change (with any — possibly empty —
ordered list of siafund pool diffs), the in-memory siafund pool equals
the fold of `poolStep` over the diffs in delivery order, and equivalently
the `adjusted` value of the last apply diff or the `previous` value of
the last revert diff, whichever diff comes last. -/
theorem c6_siafund_pool_fold (w : Wallet) (db : DB) (cc : ConsensusChange)
    (h : (processConsensusChange w db cc).isSome = true) :
    (processConsensusChange w db cc).map (fun r => r.wallet.siafundPool)
        = some (cc.siafundPoolDiffs.foldl poolStep w.siafundPool) ∧
    ∀ d, cc.siafundPoolDiffs.getLast? = some d →
      (processConsensusChange w db cc).map (fun r => r.wallet.siafundPool)
        = some (poolStep w.siafundPool d) := by
  cases hrv : revertHistory (updateConfirmedSet w db cc).1 cc with
  | none =>
      exfalso
      unfold processConsensusChange at h
      dsimp only at h
      rw [hrv] at h
      simp at h
  | some w2 =>
      have hpool2 : w2.siafundPool = (updateConfirmedSet w db cc).1.siafundPool :=
        congrArg (fun x => x.2.1) (revertHistory_frame _ cc w2 hrv)
      have hps : (updateConfirmedSet w db cc).1.siafundPool
          = cc.siafundPoolDiffs.foldl poolStep w.siafundPool := rfl
      have hpoolS : (applyHistory w2 (updateConfirmedSet w db cc).2
            cc.appliedBlocks).wallet.siafundPool = w2.siafundPool :=
        congrArg (fun x => x.2.1) (applyHistory_frame w2 _ cc.appliedBlocks)
      have hmain : (processConsensusChange w db cc).map (fun r => r.wallet.siafundPool)
          = some (cc.siafundPoolDiffs.foldl poolStep w.siafundPool) := by
        unfold processConsensusChange
        dsimp only
        rw [hrv]
        dsimp only
        cases herr : (applyHistory w2 (updateConfirmedSet w db cc).2
            cc.appliedBlocks).err <;>
          simp [herr, hpoolS, hpool2, hps]
      refine ⟨hmain, fun d hd => ?_⟩
      rw [hmain, foldl_poolStep_getLast _ _ _ hd]

/-- Shared concrete wallet: one key for address `1`, empty history. -/
def wBase : Wallet :=
  { keys := [1], processedTransactions := [], processedTransactionMap := fun _ => none,
    unconfirmedProcessedTransactions := [], siafundPool := 0, consensusSetHeight := 0 }

/-- Concrete change for the C6 witness: two pool diffs, no blocks. -/
def ccC6 : ConsensusChange :=
  { revertedBlocks := [], appliedBlocks := [], siacoinOutputDiffs := [],
    siafundOutputDiffs := [],
    siafundPoolDiffs := [⟨.apply, 777, 0⟩, ⟨.revert, 0, 555⟩] }

theorem c6_siafund_pool_fold_witness :
    (processConsensusChange wBase DB.empty ccC6).isSome = true ∧
    (processConsensusChange wBase DB.empty ccC6).map (fun r => r.wallet.siafundPool)
        = some 555 ∧
    ccC6.siafundPoolDiffs.getLast? = some ⟨.revert, 0, 555⟩ := by
  have h : (processConsensusChange wBase DB.empty ccC6).isSome = true := by decide
  exact ⟨h, (c6_siafund_pool_fold wBase DB.empty ccC6 h).1, by decide⟩

/-! ## C1: error propagation -/

/-- C1 (amended): on any KV error inside the update closure, the
enclosing database transaction aborts — the persistent state is exactly
as before `ProcessConsensusChange` began. (The in-memory state is *not*
restored; see the counterexample.) -/
theorem c1_db_rollback_on_error (w : Wallet) (db : DB) (cc : ConsensusChange)
    (h : (processConsensusChange w db cc).map (fun r => r.err.isSome) = some true) :
    (processConsensusChange w db cc).map (fun r => r.db) = some db := by
  unfold processConsensusChange at h ⊢
  dsimp only at h ⊢
  cases hrv : revertHistory (updateConfirmedSet w db cc).1 cc with
  | none =>
      rw [hrv] at h
      simp at h
  | some w2 =>
      rw [hrv] at h
      dsimp only at h ⊢
      cases herr : (applyHistory w2 (updateConfirmedSet w db cc).2 cc.appliedBlocks).err with
      | none => rw [herr] at h; simp at h
      | some e => rfl

/-- Relevant transaction (wallet output) spending an output that was
never recorded in `HistoricOutputs`: the historic lookup fails. -/
def tC1 : Transaction :=
  { txid := 5, siacoinInputs := [⟨99, 1⟩], siacoinOutputs := [⟨10, 1⟩],
    siafundInputs := [], siafundOutputs := [], minerFees := [] }

def bC1 : Block :=
  { id := 7, timestamp := 0, minerPayouts := [], transactions := [tC1] }

/-- A change carrying a pool diff and a block whose processing fails. -/
def ccC1 : ConsensusChange :=
  { revertedBlocks := [], appliedBlocks := [bC1], siacoinOutputDiffs := [],
    siafundOutputDiffs := [], siafundPoolDiffs := [⟨.apply, 777, 0⟩] }

/-- C1 counterexample: processing `ccC1` from `wBase` hits a KV error
(`could not get historic output`), yet the wallet's in-memory siafund
pool has been set to `777` and its consensus height to `1` — the
in-memory state is *not* left as it was before the call. -/
theorem c1_memory_mutation_counterexample :
    (processConsensusChange wBase DB.empty ccC1).map
        (fun r => (r.err.isSome, r.wallet.siafundPool, r.wallet.consensusSetHeight))
      = some (true, 777, 1) ∧
    wBase.siafundPool = 0 ∧ wBase.consensusSetHeight = 0 :=
  ⟨by decide, rfl, rfl⟩

theorem c1_db_rollback_on_error_witness :
    (processConsensusChange wBase DB.empty ccC1).map (fun r => r.err.isSome) = some true ∧
    (processConsensusChange wBase DB.empty ccC1).map (fun r => r.db) = some DB.empty := by
  have h : (processConsensusChange wBase DB.empty ccC1).map (fun r => r.err.isSome)
      = some true := by decide
  exact ⟨h, c1_db_rollback_on_error wBase DB.empty ccC1 h⟩

/-! ## C3: unconfirmed updater relevance -/

theorem unconfirmed_err_persists (txns : List Transaction) (s : ExecState)
    (h : s.err.isSome = true) : txns.foldl unconfirmedTxnStep s = s := by
  induction txns with
  | nil => rfl
  | cons t txns ih =>
      rw [List.foldl_cons, show unconfirmedTxnStep s t = s by
        simp [unconfirmedTxnStep, h]]
      exact ih

theorem buildUnconfirmedPT_txid (keys : List Nat) (db : DB) (t : Transaction)
    (pt : ProcessedTransaction) (h : buildUnconfirmedPT keys db t = .ok pt) :
    pt.transactionID = t.txid := by
  unfold buildUnconfirmedPT at h
  cases hbi : buildScInputs keys db t.siacoinInputs with
  | error e => rw [hbi] at h; simp at h
  | ok scIns =>
      rw [hbi] at h
      dsimp only at h
      simp only [Except.ok.injEq] at h
      rw [← h]

theorem unconfirmed_fold_spec (txns : List Transaction) :
    ∀ (s : ExecState), (txns.foldl unconfirmedTxnStep s).err = none →
      s.err = none ∧
      (txns.foldl unconfirmedTxnStep s).wallet.unconfirmedProcessedTransactions.map
          (fun pt => pt.transactionID)
        = s.wallet.unconfirmedProcessedTransactions.map (fun pt => pt.transactionID) ++
          (txns.filter (fun t => scRelevantTxn s.wallet.keys t)).map (fun t => t.txid) := by
  induction txns with
  | nil => intro s h; exact ⟨h, by simp⟩
  | cons t txns ih =>
      intro s h
      rw [List.foldl_cons] at h ⊢
      cases hserr : s.err with
      | some e =>
          rw [show unconfirmedTxnStep s t = s by simp [unconfirmedTxnStep, hserr],
            unconfirmed_err_persists txns s (by simp [hserr]), hserr] at h
          cases h
      | none =>
          obtain ⟨h1, h2⟩ := ih (unconfirmedTxnStep s t) h
          by_cases hrel : scRelevantTxn s.wallet.keys t
          · cases hb : buildUnconfirmedPT s.wallet.keys (putScoHistoric s.db t) t with
            | error e =>
                rw [show (unconfirmedTxnStep s t).err = some e by
                  simp [unconfirmedTxnStep, hserr, hrel, hb]] at h1
                cases h1
            | ok pt =>
                have hstep : (unconfirmedTxnStep s t).wallet.unconfirmedProcessedTransactions
                    = s.wallet.unconfirmedProcessedTransactions ++ [pt] := by
                  simp [unconfirmedTxnStep, hserr, hrel, hb]
                have hkeys : (unconfirmedTxnStep s t).wallet.keys = s.wallet.keys := by
                  simp [unconfirmedTxnStep, hserr, hrel, hb]
                refine ⟨rfl, ?_⟩
                rw [h2, hstep, hkeys, List.filter_cons]
                simp [hrel, buildUnconfirmedPT_txid _ _ _ _ hb]
          · have hstep : unconfirmedTxnStep s t = { s with db := putScoHistoric s.db t } := by
              simp [unconfirmedTxnStep, hserr, hrel]
            refine ⟨rfl, ?_⟩
            rw [h2, hstep, List.filter_cons]
            simp [hrel]

/-- C3 (amended): the unconfirmed updater computes relevance from the
siacoin inputs and siacoin outputs only (`scRelevantTxn`), and exactly
the transactions relevant under that test produce entries (in order) in
the rebuilt unconfirmed list. -/
theorem c3_unconfirmed_rebuild (w : Wallet) (db : DB) (txns : List Transaction)
    (h : (receiveUpdatedUnconfirmedTransactions w db txns).err = none) :
    (receiveUpdatedUnconfirmedTransactions w db txns).wallet.unconfirmedProcessedTransactions.map
        (fun pt => pt.transactionID)
      = (txns.filter (fun t => scRelevantTxn w.keys t)).map (fun t => t.txid) := by
  unfold receiveUpdatedUnconfirmedTransactions at h ⊢
  dsimp only at h ⊢
  cases herr : (txns.foldl unconfirmedTxnStep
      ⟨{ w with unconfirmedProcessedTransactions := [] }, db, none⟩).err with
  | some e => rw [herr] at h; simp at h
  | none =>
      dsimp only
      obtain ⟨_, h2⟩ := unconfirmed_fold_spec txns
        ⟨{ w with unconfirmedProcessedTransactions := [] }, db, none⟩ herr
      simpa using h2

/-- Mempool transaction relevant to the wallet only through a siafund
output. -/
def tC3 : Transaction :=
  { txid := 5, siacoinInputs := [], siacoinOutputs := [],
    siafundInputs := [], siafundOutputs := [⟨2, 1, 0⟩], minerFees := [] }

/-- C3 counterexample: `tC3` is relevant under the history engine's
relevance pass (`relevantTxn`, which inspects the siafund sets), the
mempool update succeeds, yet the rebuilt unconfirmed list is empty —
the unconfirmed updater ignored the siafund sets. -/
theorem c3_siafund_relevance_counterexample :
    relevantTxn wBase.keys tC3 = true ∧
    (receiveUpdatedUnconfirmedTransactions wBase DB.empty [tC3]).err = none ∧
    (receiveUpdatedUnconfirmedTransactions wBase DB.empty
      [tC3]).wallet.unconfirmedProcessedTransactions = [] := by
  refine ⟨by decide, by decide, by decide⟩

/-- Mempool transaction with a wallet siacoin output. -/
def tC3rel : Transaction :=
  { txid := 21, siacoinInputs := [], siacoinOutputs := [⟨30, 1⟩],
    siafundInputs := [], siafundOutputs := [], minerFees := [] }

/-- Mempool transaction not relevant to the wallet at all. -/
def tC3irr : Transaction :=
  { txid := 22, siacoinInputs := [], siacoinOutputs := [⟨40, 9⟩],
    siafundInputs := [], siafundOutputs := [], minerFees := [] }

theorem c3_unconfirmed_rebuild_witness :
    (receiveUpdatedUnconfirmedTransactions wBase DB.empty [tC3rel, tC3irr]).err = none ∧
    (receiveUpdatedUnconfirmedTransactions wBase DB.empty
      [tC3rel, tC3irr]).wallet.unconfirmedProcessedTransactions.map (fun pt => pt.transactionID)
      = [21] := by
  have h : (receiveUpdatedUnconfirmedTransactions wBase DB.empty [tC3rel, tC3irr]).err
      = none := by decide
  exact ⟨h, c3_unconfirmed_rebuild wBase DB.empty [tC3rel, tC3irr] h⟩

/-! ## C8: SiacoinOutputs bucket invariant -/

/-- Every output stored in the `SiacoinOutputs` bucket belongs to a
wallet address. -/
def scBucketInv (keys : List Nat) (db : DB) : Prop :=
  ∀ id o, db.siacoinOutputs id = some o → keysContain keys o.unlockHash = true

theorem scDiffStep_inv (keys : List Nat) (db : DB) (d : SiacoinOutputDiff)
    (h : scBucketInv keys db) : scBucketInv keys (scDiffStep keys db d) := by
  obtain ⟨dir, did, dout⟩ := d
  intro id o ho
  unfold scDiffStep at ho
  dsimp only at ho
  by_cases hw : keysContain keys dout.unlockHash
  · rw [if_pos hw] at ho
    cases dir
    · unfold DB.putSiacoinOutput at ho
      dsimp only at ho
      by_cases hid : id = did
      · rw [if_pos hid] at ho
        injection ho with ho2
        rw [← ho2]
        exact hw
      · rw [if_neg hid] at ho
        exact h id o ho
    · unfold DB.deleteSiacoinOutput at ho
      dsimp only at ho
      by_cases hid : id = did
      · rw [if_pos hid] at ho; cases ho
      · rw [if_neg hid] at ho
        exact h id o ho
  · rw [if_neg hw] at ho
    exact h id o ho

theorem scFold_inv (keys : List Nat) (l : List SiacoinOutputDiff) :
    ∀ db, scBucketInv keys db → scBucketInv keys (l.foldl (scDiffStep keys) db) := by
  induction l with
  | nil => intro db h; exact h
  | cons d l ih =>
      intro db h
      rw [List.foldl_cons]
      exact ih _ (scDiffStep_inv keys db d h)

theorem sfDiffStep_sc (keys : List Nat) (db : DB) (d : SiafundOutputDiff) :
    (sfDiffStep keys db d).siacoinOutputs = db.siacoinOutputs := by
  obtain ⟨dir, did, dout⟩ := d
  unfold sfDiffStep
  dsimp only
  split
  · cases dir <;> rfl
  · rfl

theorem scBucketInv_congr (keys : List Nat) (db1 db2 : DB)
    (h : db1.siacoinOutputs = db2.siacoinOutputs) (hinv : scBucketInv keys db2) :
    scBucketInv keys db1 := by
  intro id o ho
  rw [h] at ho
  exact hinv id o ho

theorem updateConfirmedSet_scInv (w : Wallet) (db : DB) (cc : ConsensusChange)
    (hinv : scBucketInv w.keys db) : scBucketInv w.keys (updateConfirmedSet w db cc).2 := by
  unfold updateConfirmedSet
  dsimp only
  refine scBucketInv_congr w.keys _ _
    (foldl_preserves (sfDiffStep w.keys) (fun d => d.siacoinOutputs)
      (fun db2 d => sfDiffStep_sc w.keys db2 d) cc.siafundOutputDiffs _) ?_
  exact scFold_inv w.keys cc.siacoinOutputDiffs db hinv

theorem processCC_keys (w : Wallet) (db : DB) (cc : ConsensusChange) (r : CCResult)
    (h : processConsensusChange w db cc = some r) : r.wallet.keys = w.keys := by
  unfold processConsensusChange at h
  dsimp only at h
  cases hrv : revertHistory (updateConfirmedSet w db cc).1 cc with
  | none => rw [hrv] at h; cases h
  | some w2 =>
      rw [hrv] at h
      dsimp only at h
      have hk2 : w2.keys = (updateConfirmedSet w db cc).1.keys :=
        congrArg (fun x => x.1) (revertHistory_frame _ cc w2 hrv)
      have hk3 : (applyHistory w2 (updateConfirmedSet w db cc).2
          cc.appliedBlocks).wallet.keys = w2.keys :=
        congrArg (fun x => x.1) (applyHistory_frame w2 _ cc.appliedBlocks)
      cases herr : (applyHistory w2 (updateConfirmedSet w db cc).2 cc.appliedBlocks).err with
      | none =>
          rw [herr] at h
          injection h with h2
          rw [← h2]
          exact hk3.trans hk2
      | some e =>
          rw [herr] at h
          injection h with h2
          rw [← h2]
          exact hk3.trans hk2

theorem processCC_scInv (w : Wallet) (db : DB) (cc : ConsensusChange) (r : CCResult)
    (h : processConsensusChange w db cc = some r)
    (hinv : scBucketInv w.keys db) : scBucketInv w.keys r.db := by
  unfold processConsensusChange at h
  dsimp only at h
  cases hrv : revertHistory (updateConfirmedSet w db cc).1 cc with
  | none => rw [hrv] at h; cases h
  | some w2 =>
      rw [hrv] at h
      dsimp only at h
      have hsc : (applyHistory w2 (updateConfirmedSet w db cc).2
          cc.appliedBlocks).db.siacoinOutputs = (updateConfirmedSet w db cc).2.siacoinOutputs :=
        congrArg (fun x => x.2.2.2.1) (applyHistory_frame w2 _ cc.appliedBlocks)
      cases herr : (applyHistory w2 (updateConfirmedSet w db cc).2 cc.appliedBlocks).err with
      | none =>
          rw [herr] at h
          injection h with h2
          rw [← h2]
          exact scBucketInv_congr w.keys _ _ hsc (updateConfirmedSet_scInv w db cc hinv)
      | some e =>
          rw [herr] at h
          injection h with h2
          rw [← h2]
          exact hinv

theorem processSeq_scInv (ccs : List ConsensusChange) :
    ∀ (w : Wallet) (db : DB) (w' : Wallet) (db' : DB),
      processSeq w db ccs = some (w', db') → scBucketInv w.keys db →
      scBucketInv w.keys db' ∧ w'.keys = w.keys := by
  induction ccs with
  | nil =>
      intro w db w' db' h hinv
      unfold processSeq at h
      injection h with h2
      simp only [Prod.mk.injEq] at h2
      obtain ⟨hw', hdb'⟩ := h2
      rw [← hw', ← hdb']
      exact ⟨hinv, rfl⟩
  | cons cc ccs ih =>
      intro w db w' db' h hinv
      unfold processSeq at h
      cases hcc : processConsensusChange w db cc with
      | none => rw [hcc] at h; cases h
      | some r =>
          rw [hcc] at h
          have hk := processCC_keys w db cc r hcc
          have hinv2 : scBucketInv r.wallet.keys r.db := by
            rw [hk]
            exact processCC_scInv w db cc r hcc hinv
          obtain ⟨ha, hb⟩ := ih r.wallet r.db w' db' h hinv2
          rw [hk] at ha hb
          exact ⟨ha, hb⟩

theorem scFold_skip (keys : List Nat) (l : List SiacoinOutputDiff) :
    ∀ db, (∀ d ∈ l, keysContain keys d.siacoinOutput.unlockHash = false) →
      l.foldl (scDiffStep keys) db = db := by
  induction l with
  | nil => intro db _; rfl
  | cons d l ih =>
      intro db hall
      rw [List.foldl_cons, show scDiffStep keys db d = db by
        unfold scDiffStep
        rw [if_neg (by rw [hall d (by simp)]; simp)]]
      exact ih db fun d2 hd2 => hall d2 (by simp [hd2])

theorem sfFold_skip (keys : List Nat) (l : List SiafundOutputDiff) :
    ∀ db, (∀ d ∈ l, keysContain keys d.siafundOutput.unlockHash = false) →
      l.foldl (sfDiffStep keys) db = db := by
  induction l with
  | nil => intro db _; rfl
  | cons d l ih =>
      intro db hall
      rw [List.foldl_cons, show sfDiffStep keys db d = db by
        unfold sfDiffStep
        rw [if_neg (by rw [hall d (by simp)]; simp)]]
      exact ih db fun d2 hd2 => hall d2 (by simp [hd2])

/-- C8: after any sequence of processed consensus changes, every output
stored in the `SiacoinOutputs` bucket has a wallet address (given the
invariant held initially, e.g. for an empty bucket); moreover the
confirmed-set updater only puts wallet-address diffs and skips all the
others (skipping leaves the output buckets untouched). -/
theorem c8_siacoin_bucket_invariant (w : Wallet) (db : DB) (ccs : List ConsensusChange)
    (id : Nat) (o : SiacoinOutput)
    (h1 : scBucketInv w.keys db)
    (h2 : (processSeq w db ccs).map (fun r => r.2.siacoinOutputs id) = some (some o)) :
    keysContain w.keys o.unlockHash = true ∧
    (∀ (w2 : Wallet) (db2 : DB) (cc : ConsensusChange),
      (∀ d ∈ cc.siacoinOutputDiffs, keysContain w2.keys d.siacoinOutput.unlockHash = false) →
      (∀ d ∈ cc.siafundOutputDiffs, keysContain w2.keys d.siafundOutput.unlockHash = false) →
      (updateConfirmedSet w2 db2 cc).2 = db2) := by
  constructor
  · rw [Option.map_eq_some'] at h2
    obtain ⟨⟨w', db'⟩, hseq, hproj⟩ := h2
    obtain ⟨hinv', _⟩ := processSeq_scInv ccs w db w' db' hseq h1
    exact hinv' id o hproj
  · intro w2 db2 cc hsc hsf
    unfold updateConfirmedSet
    dsimp only
    rw [scFold_skip w2.keys cc.siacoinOutputDiffs db2 hsc,
      sfFold_skip w2.keys cc.siafundOutputDiffs db2 hsf]

/-- Concrete change for the C8 witness: one wallet-address apply diff. -/
def ccC8 : ConsensusChange :=
  { revertedBlocks := [], appliedBlocks := [],
    siacoinOutputDiffs := [⟨.apply, 5, ⟨50, 1⟩⟩],
    siafundOutputDiffs := [], siafundPoolDiffs := [] }

theorem c8_siacoin_bucket_invariant_witness :
    scBucketInv wBase.keys DB.empty ∧
    (processSeq wBase DB.empty [ccC8]).map (fun r => r.2.siacoinOutputs 5)
        = some (some ⟨50, 1⟩) ∧
    keysContain wBase.keys 1 = true := by
  have h1 : scBucketInv wBase.keys DB.empty := fun id o ho => Option.noConfusion ho
  have h2 : (processSeq wBase DB.empty [ccC8]).map (fun r => r.2.siacoinOutputs 5)
      = some (some ⟨50, 1⟩) := by decide
  exact ⟨h1, h2, (c8_siacoin_bucket_invariant wBase DB.empty [ccC8] 5 ⟨50, 1⟩ h1 h2).1⟩

/-! ## C7: siafund claim arithmetic -/

theorem buildSfPairs_claim (keys : List Nat) (h pool : Nat) (db : DB) :
    ∀ (l : List SiafundInput) (ps : List (ProcessedInput × ProcessedOutput)),
      buildSfPairs keys h pool db l = .ok ps →
      ∀ sfi ∈ l, ∀ v s, db.historicOutputs sfi.parentID = some v →
        db.historicClaimStarts sfi.parentID = some s →
        ({ fundType := .claimOutput, maturityHeight := u64add h MaturityDelay,
           walletAddress := keysContain keys sfi.unlockHash,
           relatedAddress := sfi.claimUnlockHash,
           value := (pool - s) * v } : ProcessedOutput) ∈ ps.map Prod.snd := by
  intro l
  induction l with
  | nil => intro ps hps sfi hmem; simp at hmem
  | cons a l ih =>
      intro ps hps sfi hmem v s hv hs
      unfold buildSfPairs at hps
      cases hva : db.historicOutputs a.parentID with
      | none => rw [hva] at hps; cases hps
      | some va =>
          rw [hva] at hps
          dsimp only at hps
          cases hsa : db.historicClaimStarts a.parentID with
          | none => rw [hsa] at hps; cases hps
          | some sa =>
              rw [hsa] at hps
              dsimp only at hps
              cases htl : buildSfPairs keys h pool db l with
              | error e => rw [htl] at hps; cases hps
              | ok tl =>
                  rw [htl] at hps
                  dsimp only at hps
                  injection hps with hps2
                  rw [← hps2]
                  rcases List.mem_cons.mp hmem with heq | hmem2
                  · rw [heq] at hv hs
                    rw [hva] at hv
                    rw [hsa] at hs
                    injection hv with hv2
                    injection hs with hs2
                    rw [List.map_cons]
                    rw [heq, ← hv2, ← hs2]
                    exact List.mem_cons_self _ _
                  · rw [List.map_cons]
                    exact List.mem_cons_of_mem _ (ih tl htl sfi hmem2 v s hv hs)

/-- C7: for a relevant transaction with a siafund input whose historic
value is `v` and historic claim start is `s`, the synthesized processed
transaction contains a claim output of value exactly `(pool - s) * v`
(exact integer arithmetic, since `s ≤ pool`), fund type `ClaimOutput`,
maturity height `consensusSetHeight + MaturityDelay`, targeted at the
input's `ClaimUnlockHash`. -/
theorem c7_claim_output_arithmetic (keys : List Nat) (h pool ts : Nat) (db : DB)
    (t : Transaction) (sfi : SiafundInput) (v s : Nat) (pt : ProcessedTransaction)
    (hmem : sfi ∈ t.siafundInputs)
    (hv : db.historicOutputs sfi.parentID = some v)
    (hs : db.historicClaimStarts sfi.parentID = some s)
    (hle : s ≤ pool)
    (hok : buildApplyPT keys h pool ts db t = .ok pt) :
    ({ fundType := .claimOutput, maturityHeight := u64add h MaturityDelay,
       walletAddress := keysContain keys sfi.unlockHash,
       relatedAddress := sfi.claimUnlockHash,
       value := (pool - s) * v } : ProcessedOutput) ∈ pt.outputs ∧
    ((pool - s : Nat) : Int) = (pool : Int) - (s : Int) := by
  refine ⟨?_, by omega⟩
  unfold buildApplyPT at hok
  cases hsc : buildScInputs keys db t.siacoinInputs with
  | error e => rw [hsc] at hok; cases hok
  | ok scIns =>
      rw [hsc] at hok
      dsimp only at hok
      cases hsf : buildSfPairs keys h pool db t.siafundInputs with
      | error e => rw [hsf] at hok; cases hok
      | ok sfPairs =>
          rw [hsf] at hok
          dsimp only at hok
          injection hok with hok2
          rw [← hok2]
          dsimp only
          have hm := buildSfPairs_claim keys h pool db t.siafundInputs sfPairs hsf
            sfi hmem v s hv hs
          simp only [List.mem_append]
          exact Or.inl (Or.inl (Or.inr hm))

/-- S4 instance: one siafund input of value 3, claim start 400. -/
def tC7 : Transaction :=
  { txid := 5, siacoinInputs := [], siacoinOutputs := [],
    siafundInputs := [⟨42, 1, 3⟩], siafundOutputs := [], minerFees := [] }

def dbC7 : DB := (DB.empty.putHistoricOutput 42 3).putHistoricClaimStart 42 400

def ptC7 : ProcessedTransaction :=
  { transaction := tC7, transactionID := 5, confirmationHeight := 10,
    confirmationTimestamp := 0,
    inputs := [⟨.siafundInput, true, 1, 3⟩],
    outputs := [⟨.claimOutput, 154, true, 3, 1800⟩] }

theorem c7_claim_output_arithmetic_witness :
    (⟨42, 1, 3⟩ : SiafundInput) ∈ tC7.siafundInputs ∧
    dbC7.historicOutputs 42 = some 3 ∧
    dbC7.historicClaimStarts 42 = some 400 ∧
    (400 : Nat) ≤ 1000 ∧
    buildApplyPT [1] 10 1000 0 dbC7 tC7 = .ok ptC7 ∧
    (⟨.claimOutput, 154, true, 3, 1800⟩ : ProcessedOutput) ∈ ptC7.outputs := by
  refine ⟨by decide, by decide, by decide, by decide, rfl, ?_⟩
  exact (c7_claim_output_arithmetic [1] 10 1000 0 dbC7 tC7 ⟨42, 1, 3⟩ 3 400 ptC7
    (by decide) (by decide) (by decide) (by decide) rfl).1

/-! ## C5: unsubscribe discipline of the scan loop -/

/-- Checks that the consensus set is never asked to subscribe twice
without an unsubscribe in between; the flag records whether a
subscription is currently active. -/
def noRepeatSubscribe : List ScanEvent → Bool → Bool
  | [], _ => true
  | .subscribe :: _, true => false
  | .subscribe :: rest, false => noRepeatSubscribe rest true
  | .unsubscribe :: rest, _ => noRepeatSubscribe rest false

/-- On-chain activity at seed indices 0, 1 and 5 (largest index visible
with `n` generated keys). -/
def lisCex : Nat → Nat := fun n => if 6 ≤ n then 5 else if 2 ≤ n then 1 else 0

theorem scanLoop_trace (maxKeys : Nat) (lisOf : Nat → Nat) :
    ∀ (fuel keyCount numKeys lis : Nat),
      (scanLoop maxKeys lisOf fuel keyCount numKeys lis).outcome ≠ .fuelOut →
      (scanLoop maxKeys lisOf fuel keyCount numKeys lis).trace
        = List.replicate (scanLoop maxKeys lisOf fuel keyCount numKeys lis).rounds
            ScanEvent.subscribe ++ [ScanEvent.unsubscribe] := by
  intro fuel
  induction fuel with
  | zero => intro kc nk lis h; exact absurd rfl h
  | succ fuel ih =>
      intro kc nk lis h
      unfold scanLoop at h ⊢
      by_cases hkc : kc < maxKeys
      · rw [if_pos hkc] at h ⊢
        dsimp only at h ⊢
        by_cases htest : max lis (lisOf (kc + nk)) < (kc + nk) / 2
        · rw [if_pos htest]
          rfl
        · rw [if_neg htest] at h ⊢
          dsimp only at h ⊢
          rw [ih _ _ _ h]
          rfl
      · rw [if_neg hkc]
        rfl

/-- C5 (amended): the scanner does not unsubscribe between failed
rounds; each round issues a subscribe and the single unsubscribe
happens only at the very end — on success or on exhausting the key
budget. -/
theorem c5_single_unsubscribe_at_end (n0 M : Nat) (lisOf : Nat → Nat)
    (h : (scan n0 M lisOf).outcome ≠ .fuelOut) :
    (scan n0 M lisOf).trace
      = List.replicate (scan n0 M lisOf).rounds ScanEvent.subscribe ++
          [ScanEvent.unsubscribe] :=
  scanLoop_trace M lisOf (M + 2) 0 n0 0 h

theorem c5_single_unsubscribe_at_end_witness :
    (scan 10 100000 lisCex).outcome ≠ ScanOutcome.fuelOut ∧
    (scan 10 100000 lisCex).trace
      = List.replicate (scan 10 100000 lisCex).rounds ScanEvent.subscribe ++
          [ScanEvent.unsubscribe] := by
  have h : (scan 10 100000 lisCex).outcome ≠ ScanOutcome.fuelOut := by decide
  exact ⟨h, c5_single_unsubscribe_at_end 10 100000 lisCex h⟩

/-- C5 counterexample: in the S5 run the first round's termination test
fails, and the scanner subscribes again *without* unsubscribing first —
the trace is subscribe, subscribe, unsubscribe, which violates the
unsubscribe-between-rounds discipline the claim asserts. -/
theorem c5_no_unsubscribe_between_rounds_counterexample :
    (scan 10 100000 lisCex).trace
      = [ScanEvent.subscribe, ScanEvent.subscribe, ScanEvent.unsubscribe] ∧
    noRepeatSubscribe (scan 10 100000 lisCex).trace false = false := by
  exact ⟨by decide, by decide⟩

/-! ## C4: scan termination bounds -/

theorem u64sub_eq_of_le (a b : Nat) (hba : b ≤ a) (ha : a < U64MOD) :
    u64sub a b = a - b := by
  have h64 : U64MOD = 18446744073709551616 := by norm_num [U64MOD]
  unfold u64sub
  rw [h64] at ha ⊢
  omega

theorem pred_mul (x n0 : Nat) (hx : 1 ≤ x) :
    (x - 1) * n0 = x * n0 - n0 ∧ n0 ≤ x * n0 := by
  constructor
  · rw [Nat.sub_mul, one_mul]
  · calc n0 = 1 * n0 := (one_mul n0).symm
      _ ≤ x * n0 := Nat.mul_le_mul_right n0 hx

/-- With `B` rounds the scanner holds at least `2K` keys
(`B = clog2(ceil(2K / n0)) + 1`). -/
theorem two_pow_bound (K n0 : Nat) (h0 : 1 ≤ n0) (hK : 1 ≤ K) :
    2 * K ≤ (2 ^ (Nat.clog 2 ((2*K + n0 - 1) / n0) + 1) - 1) * n0 := by
  set c := (2*K + n0 - 1) / n0 with hc
  by_cases hcase : 2*K ≤ n0
  · have h1 : (1 : Nat) ≤ 2 ^ (Nat.clog 2 c + 1) - 1 := by
      have h2 : (2 : Nat) ≤ 2 ^ (Nat.clog 2 c + 1) := by
        calc (2 : Nat) = 2 ^ 1 := by norm_num
          _ ≤ 2 ^ (Nat.clog 2 c + 1) := Nat.pow_le_pow_right (by norm_num) (by omega)
      omega
    calc 2*K ≤ n0 := hcase
      _ = 1 * n0 := (one_mul n0).symm
      _ ≤ (2 ^ (Nat.clog 2 c + 1) - 1) * n0 := Nat.mul_le_mul_right n0 h1
  · push_neg at hcase
    have hcn : 2*K ≤ c * n0 := by
      have hdm := Nat.div_add_mod (2*K + n0 - 1) n0
      have hml : (2*K + n0 - 1) % n0 < n0 := Nat.mod_lt _ (by omega)
      rw [← hc] at hdm
      have hmul : n0 * c = c * n0 := Nat.mul_comm _ _
      omega
    have hc2 : 2 ≤ c := by
      rw [hc]
      refine (Nat.le_div_iff_mul_le (by omega)).mpr ?_
      omega
    have hclog : c ≤ 2 ^ Nat.clog 2 c := Nat.le_pow_clog (by norm_num) c
    have hpow : 2 ^ (Nat.clog 2 c + 1) = 2 * 2 ^ Nat.clog 2 c := by
      rw [pow_succ]
      ring
    have hmono : (2*c - 1) * n0 ≤ (2 ^ (Nat.clog 2 c + 1) - 1) * n0 :=
      Nat.mul_le_mul_right n0 (by omega)
    have hdist : (2*c - 1) * n0 = 2*(c*n0) - n0 := by
      rw [Nat.sub_mul, one_mul, Nat.mul_assoc]
    omega

theorem scanLoop_success (n0 M K : Nat) (lisOf : Nat → Nat)
    (h0 : 1 ≤ n0) (hK : 1 ≤ K) (hM : 4*K + n0 ≤ M) (hMU : M < U64MOD)
    (hlis : ∀ n, lisOf n < K) :
    ∀ (fuel j kc nk lis : Nat),
      Nat.clog 2 ((2*K + n0 - 1) / n0) + 1 - j ≤ fuel →
      j < Nat.clog 2 ((2*K + n0 - 1) / n0) + 1 →
      kc = (2 ^ j - 1) * n0 →
      nk = 2 ^ j * n0 →
      kc ≤ 2*K - 1 →
      lis < K →
      (scanLoop M lisOf fuel kc nk lis).outcome = .success ∧
      (scanLoop M lisOf fuel kc nk lis).rounds + j
          ≤ Nat.clog 2 ((2*K + n0 - 1) / n0) + 1 ∧
      (scanLoop M lisOf fuel kc nk lis).keyCount ≤ 4*K - 2 + n0 := by
  intro fuel
  induction fuel with
  | zero => intro j kc nk lis hfuel hj _ _ _ _; omega
  | succ fuel ih =>
      intro j kc nk lis hfuel hj hkc hnk hkcb hlisb
      obtain ⟨hA1, hA2⟩ := pred_mul (2^j) n0 (Nat.one_le_pow _ _ (by norm_num))
      obtain ⟨hB1, hB2⟩ := pred_mul (2^(j+1)) n0 (Nat.one_le_pow _ _ (by norm_num))
      have hBB : 2^(j+1) * n0 = 2*(2^j * n0) := by
        rw [pow_succ]
        ring
      unfold scanLoop
      have hkcM : kc < M := by omega
      rw [if_pos hkcM]
      dsimp only
      have hkc2 : kc + nk = (2^(j+1) - 1) * n0 := by omega
      by_cases htest : max lis (lisOf (kc + nk)) < (kc + nk) / 2
      · rw [if_pos htest]
        refine ⟨rfl, ?_, ?_⟩
        · show 1 + j ≤ Nat.clog 2 ((2*K + n0 - 1) / n0) + 1
          omega
        · show kc + nk ≤ 4*K - 2 + n0
          omega
      · rw [if_neg htest]
        have hlis2 : max lis (lisOf (kc + nk)) < K :=
          Nat.max_lt.mpr ⟨hlisb, hlis (kc + nk)⟩
        have hhalf : (kc + nk) / 2 ≤ max lis (lisOf (kc + nk)) := Nat.not_lt.mp htest
        have hkc2b : kc + nk ≤ 2*K - 1 := by omega
        have hj1 : j + 1 < Nat.clog 2 ((2*K + n0 - 1) / n0) + 1 := by
          by_contra hcon
          push_neg at hcon
          have hple : 2 ^ (Nat.clog 2 ((2*K + n0 - 1) / n0) + 1) ≤ 2 ^ (j+1) :=
            Nat.pow_le_pow_right (by norm_num) hcon
          have hmm : (2 ^ (Nat.clog 2 ((2*K + n0 - 1) / n0) + 1) - 1) * n0
              ≤ (2^(j+1) - 1) * n0 := Nat.mul_le_mul_right n0 (by omega)
          have hb := two_pow_bound K n0 h0 hK
          omega
        have husub : u64sub M (kc + nk) = M - (kc + nk) :=
          u64sub_eq_of_le M (kc+nk) (by omega) hMU
        have hnoclamp : ¬ (nk * 2 > u64sub M (kc + nk)) := by
          rw [husub]
          omega
        rw [if_neg hnoclamp]
        dsimp only
        have hrec := ih (j+1) (kc+nk) (nk*2) (max lis (lisOf (kc+nk)))
          (by omega) hj1 hkc2 (by omega) hkc2b hlis2
        exact ⟨hrec.1, by omega, hrec.2.2⟩

/-- C4 (amended): if the on-chain activity only ever uses seed indices
in `[0, K)` (every subscription reports `largestIndexSeen < K`), and
the key budget has the headroom `4K + INITIAL_KEYS ≤ MAX_KEYS`, then
the scan terminates successfully within
`clog2(ceil(2K / INITIAL_KEYS)) + 1` subscription rounds and with at
most `4K - 2 + INITIAL_KEYS` keys generated. -/
theorem c4_scan_termination_bounds (n0 M K : Nat) (lisOf : Nat → Nat)
    (h0 : 1 ≤ n0) (hK : 1 ≤ K) (hM : 4*K + n0 ≤ M) (hMU : M < U64MOD)
    (hlis : ∀ n, lisOf n < K) :
    (scan n0 M lisOf).outcome = .success ∧
    (scan n0 M lisOf).rounds ≤ Nat.clog 2 ((2*K + n0 - 1) / n0) + 1 ∧
    (scan n0 M lisOf).keyCount ≤ 4*K - 2 + n0 := by
  have hclogle : Nat.clog 2 ((2*K + n0 - 1) / n0) ≤ (2*K + n0 - 1) / n0 :=
    (Nat.le_pow_iff_clog_le (by norm_num)).mp (Nat.lt_two_pow _).le
  have hdivle : (2*K + n0 - 1) / n0 ≤ 2*K + n0 - 1 := Nat.div_le_self _ _
  have h := scanLoop_success n0 M K lisOf h0 hK hM hMU hlis (M+2) 0 0 n0 0
    (by omega) (by omega) (by simp) (by simp) (by omega) (by omega)
  have hscan : scan n0 M lisOf = scanLoop M lisOf (M+2) 0 n0 0 := rfl
  rw [hscan]
  exact ⟨h.1, by have := h.2.1; omega, h.2.2⟩

/-- C4 counterexample (the spec's own S5 scenario): activity at indices
0, 1 and 5 — so `K = 6` — with `INITIAL_KEYS = 10` makes the scanner
terminate successfully with 30 generated keys, exceeding the claimed
bound of `4K = 24` keys. -/
theorem c4_key_bound_counterexample :
    (scan 10 100000 lisCex).outcome = .success ∧
    (scan 10 100000 lisCex).keyCount = 30 ∧
    ¬ ((scan 10 100000 lisCex).keyCount ≤ 4 * 6) := by
  exact ⟨by decide, by decide, by decide⟩

theorem c4_scan_termination_bounds_witness :
    (scan 10 100000 lisCex).outcome = .success ∧
    (scan 10 100000 lisCex).rounds ≤ Nat.clog 2 ((2*6 + 10 - 1) / 10) + 1 ∧
    (scan 10 100000 lisCex).keyCount ≤ 4*6 - 2 + 10 :=
  c4_scan_termination_bounds 10 100000 6 lisCex (by decide) (by decide)
    (by decide) (by decide)
    (fun n => by
      unfold lisCex
      split
      · omega
      · split <;> omega)

/-! ## C9: the miner-payout pop in revertHistory -/

theorem apply_err_persists (ts : Nat) (txns : List Transaction) (s : ExecState)
    (h : s.err.isSome = true) : txns.foldl (applyTxnStep ts) s = s := by
  induction txns with
  | nil => rfl
  | cons t txns ih =>
      rw [List.foldl_cons, show applyTxnStep ts s t = s by simp [applyTxnStep, h]]
      exact ih

theorem buildApplyPT_txid (keys : List Nat) (h pool ts : Nat) (db : DB)
    (t : Transaction) (pt : ProcessedTransaction)
    (hok : buildApplyPT keys h pool ts db t = .ok pt) : pt.transactionID = t.txid := by
  unfold buildApplyPT at hok
  cases hsc : buildScInputs keys db t.siacoinInputs with
  | error e => rw [hsc] at hok; cases hok
  | ok scIns =>
      rw [hsc] at hok
      dsimp only at hok
      cases hsf : buildSfPairs keys h pool db t.siafundInputs with
      | error e => rw [hsf] at hok; cases hok
      | ok sfPairs =>
          rw [hsf] at hok
          dsimp only at hok
          injection hok with hok2
          rw [← hok2]

theorem applyTxns_ext (ts : Nat) (txns : List Transaction) :
    ∀ (s : ExecState), (txns.foldl (applyTxnStep ts) s).err = none →
      s.err = none ∧
      (txns.foldl (applyTxnStep ts) s).wallet.keys = s.wallet.keys ∧
      ∃ ext : List ProcessedTransaction,
        (txns.foldl (applyTxnStep ts) s).wallet.processedTransactions
          = s.wallet.processedTransactions ++ ext ∧
        ext.map (fun pt => pt.transactionID)
          = (txns.filter (fun t => relevantTxn s.wallet.keys t)).map (fun t => t.txid) := by
  induction txns with
  | nil => intro s h; exact ⟨h, rfl, [], by simp, by simp⟩
  | cons t txns ih =>
      intro s h
      rw [List.foldl_cons] at h ⊢
      cases hserr : s.err with
      | some e =>
          rw [show applyTxnStep ts s t = s by simp [applyTxnStep, hserr],
            apply_err_persists ts txns s (by simp [hserr]), hserr] at h
          cases h
      | none =>
          obtain ⟨h1, hk, ext, hpts, hids⟩ := ih (applyTxnStep ts s t) h
          by_cases hrel : relevantTxn s.wallet.keys t
          · cases hb : buildApplyPT s.wallet.keys s.wallet.consensusSetHeight
                s.wallet.siafundPool ts (putTxnHistoric s.db t) t with
            | error e =>
                rw [show (applyTxnStep ts s t).err = some e by
                  simp [applyTxnStep, hserr, hrel, hb]] at h1
                cases h1
            | ok pt =>
                have hstep : (applyTxnStep ts s t).wallet.processedTransactions
                    = s.wallet.processedTransactions ++ [pt] := by
                  simp [applyTxnStep, hserr, hrel, hb]
                have hkeys : (applyTxnStep ts s t).wallet.keys = s.wallet.keys := by
                  simp [applyTxnStep, hserr, hrel, hb]
                refine ⟨rfl, hk.trans hkeys, pt :: ext, ?_, ?_⟩
                · rw [hpts, hstep, List.append_assoc, List.singleton_append]
                · rw [List.map_cons, List.filter_cons]
                  simp only [hrel, if_true]
                  rw [List.map_cons,
                    buildApplyPT_txid _ _ _ _ _ _ _ hb]
                  congr 1
                  rw [hids, hkeys]
          · have hstep : applyTxnStep ts s t = { s with db := putTxnHistoric s.db t } := by
              simp [applyTxnStep, hserr, hrel]
            refine ⟨rfl, ?_, ext, ?_, ?_⟩
            · rw [hk, hstep]
            · rw [hpts, hstep]
            · rw [hids, hstep, List.filter_cons]
              simp [hrel]

theorem revertTxnStep_keys (w : Wallet) (t : Transaction) :
    (revertTxnStep w t).keys = w.keys :=
  congrArg (fun x => x.1) (revertTxnStep_frame w t)

/-- The reversed-transaction loop of `revertHistory` pops exactly the
processed transactions appended for this block (one per relevant
transaction, matched by id from the tail), leaving `L0` intact —
provided the block's transaction ids are distinct and the id at the
tail of `L0` is not among them. -/
theorem revertTxns_pop (txns : List Transaction) :
    ∀ (w : Wallet) (L0 ext : List ProcessedTransaction),
      w.processedTransactions = L0 ++ ext →
      ext.map (fun pt => pt.transactionID)
        = (txns.filter (fun t => relevantTxn w.keys t)).map (fun t => t.txid) →
      (txns.map (fun t => t.txid)).Nodup →
      L0 ≠ [] →
      (∀ pt, L0.getLast? = some pt →
        pt.transactionID ∉ txns.map (fun t => t.txid)) →
      (txns.reverse.foldl revertTxnStep w).processedTransactions = L0 := by
  induction txns using List.reverseRecOn with
  | nil =>
      intro w L0 ext hpts hids _ _ _
      simp only [List.filter_nil, List.map_nil, List.map_eq_nil_iff] at hids
      rw [List.reverse_nil, List.foldl_nil, hpts, hids, List.append_nil]
  | append_singleton P t ih =>
      intro w L0 ext hpts hids hnodup hL0 hlast
      have hrev : (P ++ [t]).reverse = t :: P.reverse := by simp
      rw [hrev, List.foldl_cons]
      rw [List.filter_append, List.map_append] at hids
      by_cases hrel : relevantTxn w.keys t
      · have hf1 : ([t].filter (fun t2 => relevantTxn w.keys t2)) = [t] := by
          simp [hrel]
        rw [hf1, List.map_singleton] at hids
        rcases List.eq_nil_or_concat ext with hnil | ⟨ext', e, hext⟩
        · rw [hnil] at hids; simp at hids
        · rw [List.concat_eq_append] at hext
          rw [hext, List.map_append, List.map_singleton] at hids
          rw [hext] at hpts
          have hinj := List.append_inj' hids (by simp)
          have heid : e.transactionID = t.txid := by
            have := hinj.2
            simp only [List.cons.injEq] at this
            exact this.1
          have hstep_pts : (revertTxnStep w t).processedTransactions = L0 ++ ext' := by
            unfold revertTxnStep
            have hg : w.processedTransactions.getLast? = some e := by
              rw [hpts, ← List.append_assoc]
              exact List.getLast?_concat _
            rw [hg]
            dsimp only
            rw [if_pos heid.symm]
            dsimp only
            rw [hpts, ← List.append_assoc, List.dropLast_concat]
          have hstep_keys : (revertTxnStep w t).keys = w.keys := revertTxnStep_keys w t
          refine ih (revertTxnStep w t) L0 ext' hstep_pts ?_ ?_ hL0 ?_
          · rw [hstep_keys]
            exact hinj.1
          · rw [List.map_append] at hnodup
            exact hnodup.of_append_left
          · intro pt hg2
            have := hlast pt hg2
            intro hmem
            apply this
            rw [List.map_append]
            exact List.mem_append_left _ hmem
      · have hf1 : ([t].filter (fun t2 => relevantTxn w.keys t2)) = [] := by
          simp [hrel]
        rw [hf1] at hids
        simp only [List.map_nil, List.append_nil] at hids
        have hstep : revertTxnStep w t = w := by
          unfold revertTxnStep
          cases hg : w.processedTransactions.getLast? with
          | none => rfl
          | some pt0 =>
              dsimp only
              rw [if_neg ?hne]
              case hne =>
                intro heq
                rcases List.eq_nil_or_concat ext with hnil | ⟨ext', e, hext⟩
                · rw [hnil, List.append_nil] at hpts
                  rw [hpts] at hg
                  apply hlast pt0 hg
                  rw [List.map_append]
                  apply List.mem_append_right
                  simp [← heq]
                · rw [List.concat_eq_append] at hext
                  rw [hext] at hpts hids
                  have hg2 : w.processedTransactions.getLast? = some e := by
                    rw [hpts, ← List.append_assoc]
                    exact List.getLast?_concat _
                  rw [hg] at hg2
                  injection hg2 with he
                  have hmem : pt0.transactionID ∈ P.map (fun t2 => t2.txid) := by
                    have h1 : e.transactionID
                        ∈ (ext' ++ [e]).map (fun pt => pt.transactionID) := by simp
                    rw [hids] at h1
                    rw [he]
                    exact List.map_subset _ (List.filter_subset' _) h1
                  rw [List.map_append] at hnodup
                  have hdisj := (List.nodup_append.mp hnodup).2.2
                  have hm1 : t.txid ∈ P.map (fun t2 => t2.txid) := by
                    rw [heq]
                    exact hmem
                  have hm2 : t.txid ∈ [t].map (fun t2 => t2.txid) := by simp
                  exact hdisj hm1 hm2
        rw [hstep]
        exact ih w L0 ext hpts hids (by
            rw [List.map_append] at hnodup
            exact hnodup.of_append_left)
          hL0 (fun pt hg2 hmem => hlast pt hg2 (by
            rw [List.map_append]
            exact List.mem_append_left _ hmem))

theorem applyBlockStep_out (w0 : Wallet) (db0 : DB) (b : Block)
    (hminer : (b.minerPayouts.any fun mp => keysContain w0.keys mp.unlockHash) = true)
    (herr : (applyBlockStep ⟨w0, db0, none⟩ b).err = none) :
    ∃ mpt ext,
      (applyBlockStep ⟨w0, db0, none⟩ b).wallet.processedTransactions
        = (w0.processedTransactions ++ [mpt]) ++ ext ∧
      mpt.transactionID = b.id ∧
      ext.map (fun pt => pt.transactionID)
        = (b.transactions.filter (fun t => relevantTxn w0.keys t)).map (fun t => t.txid) ∧
      (applyBlockStep ⟨w0, db0, none⟩ b).wallet.keys = w0.keys := by
  unfold applyBlockStep at herr ⊢
  rw [if_neg (by simp : ¬ ((⟨w0, db0, none⟩ : ExecState).err.isSome = true))] at herr ⊢
  dsimp only at herr ⊢
  rw [if_pos hminer] at herr ⊢
  obtain ⟨_, hkeys, ext, hpts, hids⟩ := applyTxns_ext b.timestamp b.transactions _ herr
  exact ⟨_, ext, hpts, rfl, hids, hkeys⟩

/-- Block with a wallet miner payout and no transactions:
reverting it against an empty history panics. -/
def bC9 : Block :=
  { id := 7, timestamp := 0, minerPayouts := [⟨200, 1⟩], transactions := [] }

/-- C9: in `revertHistory`, a reverted block with a wallet miner payout
pops the last processed transaction unconditionally. (1) Under the
precondition that the wallet state is exactly the result of applying the
block via `applyHistory` with the same key set (with distinct
transaction ids, none equal to the block id), the pop is in bounds and
removes precisely the synthetic miner-payout entry, restoring the prior
list. (2) On an input with an empty `processedTransactions` list the
truncation is out of bounds (a slice-bounds panic, modelled as `none`). -/
theorem c9_miner_payout_revert_pop (w0 : Wallet) (db0 : DB) (b : Block)
    (hminer : (b.minerPayouts.any fun mp => keysContain w0.keys mp.unlockHash) = true)
    (herr : (applyBlockStep ⟨w0, db0, none⟩ b).err = none)
    (hnodup : (b.transactions.map (fun t => t.txid)).Nodup)
    (hbid : b.id ∉ b.transactions.map (fun t => t.txid)) :
    (revertBlock (applyBlockStep ⟨w0, db0, none⟩ b).wallet b).map
        (fun x => x.processedTransactions) = some w0.processedTransactions ∧
    revertBlock wBase bC9 = none := by
  constructor
  · obtain ⟨mpt, ext, hpts, hmid, hids, hkeys⟩ := applyBlockStep_out w0 db0 b hminer herr
    have hloop : (b.transactions.reverse.foldl revertTxnStep
          (applyBlockStep ⟨w0, db0, none⟩ b).wallet).processedTransactions
        = w0.processedTransactions ++ [mpt] :=
      revertTxns_pop b.transactions (applyBlockStep ⟨w0, db0, none⟩ b).wallet
        (w0.processedTransactions ++ [mpt]) ext hpts
        (by rw [hkeys]; exact hids) hnodup (by simp)
        (fun pt hg => by
          rw [List.getLast?_concat] at hg
          injection hg with hg2
          rw [← hg2, hmid]
          exact hbid)
    have hloopkeys : (b.transactions.reverse.foldl revertTxnStep
          (applyBlockStep ⟨w0, db0, none⟩ b).wallet).keys
        = (applyBlockStep ⟨w0, db0, none⟩ b).wallet.keys :=
      foldl_preserves revertTxnStep (fun x => x.keys) revertTxnStep_keys _ _
    unfold revertBlock
    dsimp only
    have hcond : (b.minerPayouts.any fun mp =>
        (b.transactions.reverse.foldl revertTxnStep
          (applyBlockStep ⟨w0, db0, none⟩ b).wallet).isWalletAddress mp.unlockHash)
        = true := by
      simp only [Wallet.isWalletAddress]
      rw [hloopkeys, hkeys]
      simp only [keysContain] at hminer
      exact hminer
    rw [if_pos hcond]
    rw [hloop]
    rw [if_neg (by simp :
      ¬ ((w0.processedTransactions ++ [mpt]).isEmpty = true))]
    simp only [Option.map_some']
    rw [List.dropLast_concat]
  · rfl

/-- Relevant transaction for the C9 witness block. -/
def tC9w : Transaction :=
  { txid := 5, siacoinInputs := [], siacoinOutputs := [⟨10, 1⟩],
    siafundInputs := [], siafundOutputs := [], minerFees := [] }

def bC9w : Block :=
  { id := 7, timestamp := 0, minerPayouts := [⟨200, 1⟩], transactions := [tC9w] }

theorem c9_miner_payout_revert_pop_witness :
    (bC9w.minerPayouts.any fun mp => keysContain wBase.keys mp.unlockHash) = true ∧
    (applyBlockStep ⟨wBase, DB.empty, none⟩ bC9w).err = none ∧
    (bC9w.transactions.map (fun t => t.txid)).Nodup ∧
    bC9w.id ∉ bC9w.transactions.map (fun t => t.txid) ∧
    (revertBlock (applyBlockStep ⟨wBase, DB.empty, none⟩ bC9w).wallet bC9w).map
        (fun x => x.processedTransactions) = some wBase.processedTransactions := by
  refine ⟨by decide, by decide, by decide, by decide, ?_⟩
  exact (c9_miner_payout_revert_pop wBase DB.empty bC9w (by decide) (by decide)
    (by decide) (by decide)).1

/-! ## C2: revert restores the output buckets -/

def flipDirection : DiffDirection → DiffDirection
  | .apply => .revert
  | .revert => .apply

/-- The diff the consensus engine delivers when undoing a diff. -/
def flipScDiff (d : SiacoinOutputDiff) : SiacoinOutputDiff :=
  { d with direction := flipDirection d.direction }

def flipSfDiff (d : SiafundOutputDiff) : SiafundOutputDiff :=
  { d with direction := flipDirection d.direction }

def flipPoolDiff (d : SiafundPoolDiff) : SiafundPoolDiff :=
  { d with direction := flipDirection d.direction }

/-- The consensus change that undoes `cc`: applied and reverted blocks
swap (in reverse order), every diff flips direction, diff lists are
reversed. -/
def reverseChange (cc : ConsensusChange) : ConsensusChange :=
  { revertedBlocks := cc.appliedBlocks.reverse,
    appliedBlocks := cc.revertedBlocks.reverse,
    siacoinOutputDiffs := (cc.siacoinOutputDiffs.map flipScDiff).reverse,
    siafundOutputDiffs := (cc.siafundOutputDiffs.map flipSfDiff).reverse,
    siafundPoolDiffs := (cc.siafundPoolDiffs.map flipPoolDiff).reverse }

/-- The reverse-composed full revert of a sequence of changes. -/
def revertSeqOf (ccs : List ConsensusChange) : List ConsensusChange :=
  ccs.reverse.map reverseChange

/-- The effect of one siacoin diff on the bucket contents alone. -/
def scStepM (keys : List Nat) (m : Nat → Option SiacoinOutput)
    (d : SiacoinOutputDiff) : Nat → Option SiacoinOutput :=
  if keysContain keys d.siacoinOutput.unlockHash then
    match d.direction with
    | .apply => fun k => if k = d.id then some d.siacoinOutput else m k
    | .revert => fun k => if k = d.id then none else m k
  else m

def sfStepM (keys : List Nat) (m : Nat → Option SiafundOutput)
    (d : SiafundOutputDiff) : Nat → Option SiafundOutput :=
  if keysContain keys d.siafundOutput.unlockHash then
    match d.direction with
    | .apply => fun k => if k = d.id then some d.siafundOutput else m k
    | .revert => fun k => if k = d.id then none else m k
  else m

theorem scDiffStep_proj (keys : List Nat) (db : DB) (d : SiacoinOutputDiff) :
    (scDiffStep keys db d).siacoinOutputs = scStepM keys db.siacoinOutputs d := by
  obtain ⟨dir, did, dout⟩ := d
  unfold scDiffStep scStepM
  dsimp only
  split
  · cases dir <;> rfl
  · rfl

theorem sfDiffStep_proj (keys : List Nat) (db : DB) (d : SiafundOutputDiff) :
    (sfDiffStep keys db d).siafundOutputs = sfStepM keys db.siafundOutputs d := by
  obtain ⟨dir, did, dout⟩ := d
  unfold sfDiffStep sfStepM
  dsimp only
  split
  · cases dir <;> rfl
  · rfl

theorem scDiffStep_sf (keys : List Nat) (db : DB) (d : SiacoinOutputDiff) :
    (scDiffStep keys db d).siafundOutputs = db.siafundOutputs := by
  obtain ⟨dir, did, dout⟩ := d
  unfold scDiffStep
  dsimp only
  split
  · cases dir <;> rfl
  · rfl

theorem scFold_proj (keys : List Nat) (l : List SiacoinOutputDiff) :
    ∀ db : DB, (l.foldl (scDiffStep keys) db).siacoinOutputs
      = l.foldl (scStepM keys) db.siacoinOutputs := by
  induction l with
  | nil => intro db; rfl
  | cons d l ih =>
      intro db
      rw [List.foldl_cons, List.foldl_cons, ih, scDiffStep_proj]

theorem sfFold_proj (keys : List Nat) (l : List SiafundOutputDiff) :
    ∀ db : DB, (l.foldl (sfDiffStep keys) db).siafundOutputs
      = l.foldl (sfStepM keys) db.siafundOutputs := by
  induction l with
  | nil => intro db; rfl
  | cons d l ih =>
      intro db
      rw [List.foldl_cons, List.foldl_cons, ih, sfDiffStep_proj]

/-- Validity of one siacoin diff against the current bucket: an apply
diff inserts a fresh id; a revert diff removes exactly the output it
carries. (Non-wallet diffs are skipped and need no condition.) -/
def scDiffOKb (keys : List Nat) (m : Nat → Option SiacoinOutput)
    (d : SiacoinOutputDiff) : Bool :=
  if keysContain keys d.siacoinOutput.unlockHash then
    match d.direction with
    | .apply => (m d.id).isNone
    | .revert => decide (m d.id = some d.siacoinOutput)
  else true

def sfDiffOKb (keys : List Nat) (m : Nat → Option SiafundOutput)
    (d : SiafundOutputDiff) : Bool :=
  if keysContain keys d.siafundOutput.unlockHash then
    match d.direction with
    | .apply => (m d.id).isNone
    | .revert => decide (m d.id = some d.siafundOutput)
  else true

def scDiffsOKb (keys : List Nat) :
    (Nat → Option SiacoinOutput) → List SiacoinOutputDiff → Bool
  | _, [] => true
  | m, d :: ds => scDiffOKb keys m d && scDiffsOKb keys (scStepM keys m d) ds

def sfDiffsOKb (keys : List Nat) :
    (Nat → Option SiafundOutput) → List SiafundOutputDiff → Bool
  | _, [] => true
  | m, d :: ds => sfDiffOKb keys m d && sfDiffsOKb keys (sfStepM keys m d) ds

theorem scStepM_inverse (keys : List Nat) (m : Nat → Option SiacoinOutput)
    (d : SiacoinOutputDiff) (hok : scDiffOKb keys m d = true) :
    scStepM keys (scStepM keys m d) (flipScDiff d) = m := by
  obtain ⟨dir, did, dout⟩ := d
  unfold scDiffOKb at hok
  unfold flipScDiff flipDirection scStepM
  dsimp only at hok ⊢
  by_cases hw : keysContain keys dout.unlockHash
  · rw [if_pos hw] at hok
    rw [if_pos hw, if_pos hw]
    cases dir
    · dsimp only at hok ⊢
      funext k
      by_cases hk : k = did
      · rw [if_pos hk, hk]
        exact (Option.isNone_iff_eq_none.mp hok).symm
      · rw [if_neg hk, if_neg hk]
    · dsimp only at hok ⊢
      funext k
      by_cases hk : k = did
      · rw [if_pos hk, hk]
        exact (of_decide_eq_true hok).symm
      · rw [if_neg hk, if_neg hk]
  · rw [if_neg hw, if_neg hw]

theorem sfStepM_inverse (keys : List Nat) (m : Nat → Option SiafundOutput)
    (d : SiafundOutputDiff) (hok : sfDiffOKb keys m d = true) :
    sfStepM keys (sfStepM keys m d) (flipSfDiff d) = m := by
  obtain ⟨dir, did, dout⟩ := d
  unfold sfDiffOKb at hok
  unfold flipSfDiff flipDirection sfStepM
  dsimp only at hok ⊢
  by_cases hw : keysContain keys dout.unlockHash
  · rw [if_pos hw] at hok
    rw [if_pos hw, if_pos hw]
    cases dir
    · dsimp only at hok ⊢
      funext k
      by_cases hk : k = did
      · rw [if_pos hk, hk]
        exact (Option.isNone_iff_eq_none.mp hok).symm
      · rw [if_neg hk, if_neg hk]
    · dsimp only at hok ⊢
      funext k
      by_cases hk : k = did
      · rw [if_pos hk, hk]
        exact (of_decide_eq_true hok).symm
      · rw [if_neg hk, if_neg hk]
  · rw [if_neg hw, if_neg hw]

theorem scFoldM_inverse (keys : List Nat) :
    ∀ (ds : List SiacoinOutputDiff) (m : Nat → Option SiacoinOutput),
      scDiffsOKb keys m ds = true →
      ((ds.map flipScDiff).reverse).foldl (scStepM keys)
          (ds.foldl (scStepM keys) m) = m := by
  intro ds
  induction ds with
  | nil => intro m _; rfl
  | cons d ds ih =>
      intro m hok
      unfold scDiffsOKb at hok
      rw [Bool.and_eq_true] at hok
      rw [List.map_cons, List.reverse_cons, List.foldl_append, List.foldl_cons,
        List.foldl_nil, List.foldl_cons, ih (scStepM keys m d) hok.2]
      exact scStepM_inverse keys m d hok.1

theorem sfFoldM_inverse (keys : List Nat) :
    ∀ (ds : List SiafundOutputDiff) (m : Nat → Option SiafundOutput),
      sfDiffsOKb keys m ds = true →
      ((ds.map flipSfDiff).reverse).foldl (sfStepM keys)
          (ds.foldl (sfStepM keys) m) = m := by
  intro ds
  induction ds with
  | nil => intro m _; rfl
  | cons d ds ih =>
      intro m hok
      unfold sfDiffsOKb at hok
      rw [Bool.and_eq_true] at hok
      rw [List.map_cons, List.reverse_cons, List.foldl_append, List.foldl_cons,
        List.foldl_nil, List.foldl_cons, ih (sfStepM keys m d) hok.2]
      exact sfStepM_inverse keys m d hok.1

theorem scDiffsOKb_append (keys : List Nat) :
    ∀ (l1 l2 : List SiacoinOutputDiff) (m : Nat → Option SiacoinOutput),
      scDiffsOKb keys m (l1 ++ l2)
        = (scDiffsOKb keys m l1 && scDiffsOKb keys (l1.foldl (scStepM keys) m) l2) := by
  intro l1
  induction l1 with
  | nil => intro l2 m; simp [scDiffsOKb]
  | cons d l1 ih =>
      intro l2 m
      rw [List.cons_append]
      unfold scDiffsOKb
      rw [ih l2 (scStepM keys m d), List.foldl_cons, Bool.and_assoc]
      cases l2 <;> rfl

theorem sfDiffsOKb_append (keys : List Nat) :
    ∀ (l1 l2 : List SiafundOutputDiff) (m : Nat → Option SiafundOutput),
      sfDiffsOKb keys m (l1 ++ l2)
        = (sfDiffsOKb keys m l1 && sfDiffsOKb keys (l1.foldl (sfStepM keys) m) l2) := by
  intro l1
  induction l1 with
  | nil => intro l2 m; simp [sfDiffsOKb]
  | cons d l1 ih =>
      intro l2 m
      rw [List.cons_append]
      unfold sfDiffsOKb
      rw [ih l2 (sfStepM keys m d), List.foldl_cons, Bool.and_assoc]
      cases l2 <;> rfl

theorem ucs_buckets (w : Wallet) (db : DB) (cc : ConsensusChange) :
    (updateConfirmedSet w db cc).2.siacoinOutputs
      = cc.siacoinOutputDiffs.foldl (scStepM w.keys) db.siacoinOutputs ∧
    (updateConfirmedSet w db cc).2.siafundOutputs
      = cc.siafundOutputDiffs.foldl (sfStepM w.keys) db.siafundOutputs := by
  unfold updateConfirmedSet
  dsimp only
  constructor
  · refine Eq.trans ?_ (scFold_proj w.keys cc.siacoinOutputDiffs db)
    exact foldl_preserves (sfDiffStep w.keys) (fun d => d.siacoinOutputs)
      (fun db2 d => sfDiffStep_sc w.keys db2 d) cc.siafundOutputDiffs _
  · refine Eq.trans (sfFold_proj w.keys cc.siafundOutputDiffs _) ?_
    exact congrArg (fun m => cc.siafundOutputDiffs.foldl (sfStepM w.keys) m)
      (foldl_preserves (scDiffStep w.keys) (fun d => d.siafundOutputs)
        (fun db2 d => scDiffStep_sf w.keys db2 d) cc.siacoinOutputDiffs db)

theorem processCC_buckets (w : Wallet) (db : DB) (cc : ConsensusChange) (r : CCResult)
    (h : processConsensusChange w db cc = some r) (he : r.err = none) :
    r.db.siacoinOutputs = cc.siacoinOutputDiffs.foldl (scStepM w.keys) db.siacoinOutputs ∧
    r.db.siafundOutputs = cc.siafundOutputDiffs.foldl (sfStepM w.keys) db.siafundOutputs := by
  unfold processConsensusChange at h
  dsimp only at h
  cases hrv : revertHistory (updateConfirmedSet w db cc).1 cc with
  | none => rw [hrv] at h; cases h
  | some w2 =>
      rw [hrv] at h
      dsimp only at h
      cases herr : (applyHistory w2 (updateConfirmedSet w db cc).2 cc.appliedBlocks).err with
      | some e =>
          rw [herr] at h
          injection h with h2
          rw [← h2] at he
          simp at he
      | none =>
          rw [herr] at h
          injection h with h2
          rw [← h2]
          dsimp only
          have h1 : (applyHistory w2 (updateConfirmedSet w db cc).2
              cc.appliedBlocks).db.siacoinOutputs
              = (updateConfirmedSet w db cc).2.siacoinOutputs :=
            congrArg (fun x => x.2.2.2.1) (applyHistory_frame w2 _ cc.appliedBlocks)
          have h2b : (applyHistory w2 (updateConfirmedSet w db cc).2
              cc.appliedBlocks).db.siafundOutputs
              = (updateConfirmedSet w db cc).2.siafundOutputs :=
            congrArg (fun x => x.2.2.2.2) (applyHistory_frame w2 _ cc.appliedBlocks)
          exact ⟨h1.trans (ucs_buckets w db cc).1, h2b.trans (ucs_buckets w db cc).2⟩

/-- Well-formedness of one change against the current state: each
wallet-relevant diff composes with the bucket it acts on (the consensus
engine's self-consistency contract, spec §6), and processing the change
neither panics nor returns a KV error. -/
def wfChange (w : Wallet) (db : DB) (cc : ConsensusChange) : Bool :=
  scDiffsOKb w.keys db.siacoinOutputs cc.siacoinOutputDiffs &&
  sfDiffsOKb w.keys db.siafundOutputs cc.siafundOutputDiffs &&
  (match processConsensusChange w db cc with
   | some r => r.err.isNone
   | none => false)

/-- Well-formedness of a whole delivered sequence. -/
def wfSeq (w : Wallet) (db : DB) : List ConsensusChange → Bool
  | [] => true
  | cc :: rest =>
      wfChange w db cc &&
      (match processConsensusChange w db cc with
       | some r => wfSeq r.wallet r.db rest
       | none => false)

theorem processSeq_run (ccs : List ConsensusChange) :
    ∀ (w : Wallet) (db : DB), wfSeq w db ccs = true →
      ∃ w' db', processSeq w db ccs = some (w', db') ∧ w'.keys = w.keys ∧
        db'.siacoinOutputs
          = (ccs.flatMap (fun cc => cc.siacoinOutputDiffs)).foldl
              (scStepM w.keys) db.siacoinOutputs ∧
        db'.siafundOutputs
          = (ccs.flatMap (fun cc => cc.siafundOutputDiffs)).foldl
              (sfStepM w.keys) db.siafundOutputs ∧
        scDiffsOKb w.keys db.siacoinOutputs
            (ccs.flatMap (fun cc => cc.siacoinOutputDiffs)) = true ∧
        sfDiffsOKb w.keys db.siafundOutputs
            (ccs.flatMap (fun cc => cc.siafundOutputDiffs)) = true := by
  induction ccs with
  | nil =>
      intro w db _
      exact ⟨w, db, rfl, rfl, rfl, rfl, rfl, rfl⟩
  | cons cc ccs ih =>
      intro w db hwf
      unfold wfSeq at hwf
      rw [Bool.and_eq_true] at hwf
      obtain ⟨hwfc, hrest⟩ := hwf
      unfold wfChange at hwfc
      rw [Bool.and_eq_true, Bool.and_eq_true] at hwfc
      obtain ⟨⟨hok1, hok2⟩, hcc0⟩ := hwfc
      cases hcc : processConsensusChange w db cc with
      | none => rw [hcc] at hcc0; cases hcc0
      | some r =>
          rw [hcc] at hcc0 hrest
          dsimp only at hcc0 hrest
          have he : r.err = none := Option.isNone_iff_eq_none.mp hcc0
          have hk := processCC_keys w db cc r hcc
          obtain ⟨hb1, hb2⟩ := processCC_buckets w db cc r hcc he
          obtain ⟨w', db', hseq, hkeys', hsc', hsf', hv1, hv2⟩ := ih r.wallet r.db hrest
          refine ⟨w', db', ?_, hkeys'.trans hk, ?_, ?_, ?_, ?_⟩
          · unfold processSeq
            rw [hcc]
            exact hseq
          · rw [hsc', hk, hb1, List.flatMap_cons, List.foldl_append]
          · rw [hsf', hk, hb2, List.flatMap_cons, List.foldl_append]
          · rw [List.flatMap_cons, scDiffsOKb_append, Bool.and_eq_true]
            refine ⟨hok1, ?_⟩
            rw [← hb1, ← hk]
            exact hv1
          · rw [List.flatMap_cons, sfDiffsOKb_append, Bool.and_eq_true]
            refine ⟨hok2, ?_⟩
            rw [← hb2, ← hk]
            exact hv2

theorem flat_revertSeq_sc (ccs : List ConsensusChange) :
    (revertSeqOf ccs).flatMap (fun cc => cc.siacoinOutputDiffs)
      = ((ccs.flatMap (fun cc => cc.siacoinOutputDiffs)).map flipScDiff).reverse := by
  unfold revertSeqOf
  induction ccs with
  | nil => rfl
  | cons c cs ih =>
      rw [List.reverse_cons, List.map_append, List.flatMap_append, ih]
      rw [List.flatMap_cons, List.map_append, List.reverse_append]
      congr 1
      simp [reverseChange]

theorem flat_revertSeq_sf (ccs : List ConsensusChange) :
    (revertSeqOf ccs).flatMap (fun cc => cc.siafundOutputDiffs)
      = ((ccs.flatMap (fun cc => cc.siafundOutputDiffs)).map flipSfDiff).reverse := by
  unfold revertSeqOf
  induction ccs with
  | nil => rfl
  | cons c cs ih =>
      rw [List.reverse_cons, List.map_append, List.flatMap_append, ih]
      rw [List.flatMap_cons, List.map_append, List.reverse_append]
      congr 1
      simp [reverseChange]

/-- C2 (amended): processing a well-formed sequence of changes and then
its reverse-composed full revert restores the `SiacoinOutputs` and
`SiafundOutputs` buckets byte-for-byte. (The `HistoricOutputs` and
`HistoricClaimStarts` buckets are *not* restored — see the
counterexample: reverts never delete historic entries.) -/
theorem c2_revert_restores_output_buckets (w : Wallet) (db : DB)
    (ccs : List ConsensusChange)
    (hwf : wfSeq w db (ccs ++ revertSeqOf ccs) = true) :
    (processSeq w db (ccs ++ revertSeqOf ccs)).map (fun r => r.2.siacoinOutputs)
        = some db.siacoinOutputs ∧
    (processSeq w db (ccs ++ revertSeqOf ccs)).map (fun r => r.2.siafundOutputs)
        = some db.siafundOutputs := by
  obtain ⟨w', db', hseq, hkeys, hsc, hsf, hv1, hv2⟩ :=
    processSeq_run (ccs ++ revertSeqOf ccs) w db hwf
  rw [hseq]
  simp only [Option.map_some']
  constructor
  · refine congrArg some ?_
    rw [hsc, List.flatMap_append, flat_revertSeq_sc, List.foldl_append]
    apply scFoldM_inverse
    rw [List.flatMap_append, flat_revertSeq_sc, scDiffsOKb_append,
      Bool.and_eq_true] at hv1
    exact hv1.1
  · refine congrArg some ?_
    rw [hsf, List.flatMap_append, flat_revertSeq_sf, List.foldl_append]
    apply sfFoldM_inverse
    rw [List.flatMap_append, flat_revertSeq_sf, sfDiffsOKb_append,
      Bool.and_eq_true] at hv2
    exact hv2.1

theorem c2_revert_restores_output_buckets_witness :
    wfSeq wBase DB.empty ([ccC8] ++ revertSeqOf [ccC8]) = true ∧
    (processSeq wBase DB.empty ([ccC8] ++ revertSeqOf [ccC8])).map
        (fun r => r.2.siacoinOutputs) = some DB.empty.siacoinOutputs := by
  have h : wfSeq wBase DB.empty ([ccC8] ++ revertSeqOf [ccC8]) = true := by decide
  exact ⟨h, (c2_revert_restores_output_buckets wBase DB.empty [ccC8] h).1⟩

/-- Transaction whose siacoin output is written to `HistoricOutputs`. -/
def tC2 : Transaction :=
  { txid := 5, siacoinInputs := [], siacoinOutputs := [⟨100, 9⟩],
    siafundInputs := [], siafundOutputs := [], minerFees := [] }

def bC2 : Block :=
  { id := 7, timestamp := 0, minerPayouts := [], transactions := [tC2] }

def ccC2 : ConsensusChange :=
  { revertedBlocks := [], appliedBlocks := [bC2], siacoinOutputDiffs := [],
    siafundOutputDiffs := [], siafundPoolDiffs := [] }

/-- C2 counterexample: a well-formed apply-then-full-revert run leaves
an entry in `HistoricOutputs` (`applyHistory` writes it; nothing ever
deletes it), so the persistent state is *not* byte-for-byte the initial
state when the historic buckets are included. -/
theorem c2_historic_retention_counterexample :
    wfSeq wBase DB.empty ([ccC2] ++ revertSeqOf [ccC2]) = true ∧
    (processSeq wBase DB.empty ([ccC2] ++ revertSeqOf [ccC2])).map
        (fun r => r.2.historicOutputs (tC2.siacoinOutputID 0)) = some (some 100) ∧
    DB.empty.historicOutputs (tC2.siacoinOutputID 0) = none := by
  exact ⟨by decide, by decide, rfl⟩
